import Mathlib

/-!
fwContainers: ring queue (`queue.c`) and unique ring queue (`uqueue.c`)

Shallow embedding of the two C translation units.

* `size_t` is the 64-bit unsigned type: every `size_t` operation of the source
  is taken modulo `SIZE_MOD = 2^64`.
* A byte is a natural number; the source never does arithmetic on bytes.
* A heap block (`data`) and a caller buffer (`pData`) are lists of bytes.
  A store through an offset outside the list is dropped and a load from such
  an offset yields `0`; the C program has no defined behaviour there.
* A C `for` loop is a structural recursion on the number of iterations left,
  carrying the loop counter `i`.
* The queue handle and the data pointer handed to a function are non-null:
  the `assert`s of queue.c and the `NULL` tests of uqueue.c on these two
  arguments have no counterpart.  The callback pointers, which both files do
  test, are options.
* queue.c is embedded in its non-static mode (`QUEUE_STATIC_MODE` undefined).
-/

namespace FwContainers

/-- Number of values of `size_t` (64-bit target). -/
def SIZE_MOD : Nat := 18446744073709551616

/-- `a + b` in `size_t`. -/
def sz_add (a b : Nat) : Nat := (a + b) % SIZE_MOD

/-- `a - b` in `size_t` (wraps below zero). -/
def sz_sub (a b : Nat) : Nat := (a + SIZE_MOD - b % SIZE_MOD) % SIZE_MOD

/-- `a * b` in `size_t`. -/
def sz_mul (a b : Nat) : Nat := (a * b) % SIZE_MOD

/-! ## queue.c -/

/-- `struct Queue_t` (non-static mode). -/
structure Queue_t where
  data : List Nat
  write : Nat
  read : Nat
  size : Nat
  capacity : Nat
  esize : Nat
deriving DecidableEq, Repr

/-- The zero-fill loop `for(i = 0; i < rawSize; i++) data[i] = 0;`:
`n` iterations are left and the counter is `i`. -/
def zero_fill : Nat → Nat → List Nat → List Nat
  | 0, _, data => data
  | n + 1, i, data => zero_fill n (i + 1) (data.set i 0)

/-- The file-scope callback pointers `mem_alloc_fn` and `mem_free_fn`
(`none` is `NULL`).  The allocation callback receives the number of the call
within one `create` (`0` for the header, `1` for the storage) and the
requested size, and returns the block (its bytes as found) or `none` for
`NULL`. -/
structure MemCallbacks where
  mem_alloc_fn : Option (Nat → Nat → Option (List Nat))
  mem_free_fn : Option Unit

/-- Function `is_callbacks_valid`. -/
def is_callbacks_valid (cb : MemCallbacks) : Bool :=
  if cb.mem_free_fn.isSome && cb.mem_alloc_fn.isSome then true else false

/-- Function `queue_create` in non-static mode; `hdr_size` is `sizeof(*queue)`. -/
def queue_create (cb : MemCallbacks) (hdr_size : Nat) (nbm esize : Nat) : Option Queue_t :=
  let rawSize := sz_mul nbm esize
  if !is_callbacks_valid cb then none
  else
    match cb.mem_alloc_fn with
    | none => none
    | some alloc =>
      match alloc 0 hdr_size with
      | none => none
      | some _ =>
        match alloc 1 rawSize with
        | none => none
        | some blk =>
          some { data := zero_fill rawSize 0 blk, write := 0, read := 0, size := 0,
                 capacity := nbm, esize := esize }

/-- Function `queue_is_empty`. -/
def queue_is_empty (queue : Queue_t) : Bool :=
  if queue.size = 0 then true else false

/-- Function `queue_is_full`. -/
def queue_is_full (queue : Queue_t) : Bool :=
  if queue.size = queue.capacity then true else false

/-- Function `queue_size`. -/
def queue_size (queue : Queue_t) : Nat := queue.size

/-- Function `queue_free_space`. -/
def queue_free_space (queue : Queue_t) : Nat := sz_sub queue.capacity queue.size

/-- The index update `(idx == rawSize - 1ul) ? 0ul : (idx + 1ul)`. -/
def next_index (rawSize idx : Nat) : Nat :=
  if idx = sz_sub rawSize 1 then 0 else sz_add idx 1

/-- The copy loop of `queue_enqueue`: `n` iterations left, counter `i`;
returns the buffer and the write index. -/
def enqueue_loop (rawSize : Nat) (pData : List Nat) :
    Nat → Nat → List Nat → Nat → List Nat × Nat
  | 0, _, data, write => (data, write)
  | n + 1, i, data, write =>
    enqueue_loop rawSize pData n (i + 1) (data.set write (pData.getD i 0))
      (next_index rawSize write)

/-- Function `queue_enqueue`: the result and the queue afterwards. -/
def queue_enqueue (queue : Queue_t) (pData : List Nat) : Bool × Queue_t :=
  let rawSize := sz_mul queue.capacity queue.esize
  if queue_is_full queue then (false, queue)
  else
    let r := enqueue_loop rawSize pData queue.esize 0 queue.data queue.write
    (true, { queue with data := r.1, write := r.2, size := sz_add queue.size 1 })

/-- The copy loop of `queue_denqueue`: `n` iterations left, counter `i`;
returns the caller's buffer and the read index. -/
def denqueue_loop (rawSize : Nat) (data : List Nat) :
    Nat → Nat → List Nat → Nat → List Nat × Nat
  | 0, _, pData, read => (pData, read)
  | n + 1, i, pData, read =>
    denqueue_loop rawSize data n (i + 1) (pData.set i (data.getD read 0))
      (next_index rawSize read)

/-- Function `queue_denqueue`: the result, the queue afterwards and the
caller's buffer afterwards. -/
def queue_denqueue (queue : Queue_t) (pData : List Nat) : Bool × Queue_t × List Nat :=
  let rawSize := sz_mul queue.capacity queue.esize
  if queue_is_empty queue then (false, queue, pData)
  else
    let r := denqueue_loop rawSize queue.data queue.esize 0 pData queue.read
    (true, { queue with read := r.2, size := sz_sub queue.size 1 }, r.1)

/-- The copy loop of `queue_peek`: `pBuffer` is an offset into `data` that is
incremented without wrapping. -/
def peek_loop (data : List Nat) : Nat → Nat → List Nat → Nat → List Nat
  | 0, _, pData, _ => pData
  | n + 1, i, pData, pBuffer =>
    peek_loop data n (i + 1) (pData.set i (data.getD pBuffer 0)) (pBuffer + 1)

/-- Function `queue_peek`: the result and the caller's buffer afterwards (the
queue is `const`). -/
def queue_peek (queue : Queue_t) (pData : List Nat) : Bool × List Nat :=
  if queue_is_empty queue then (false, pData)
  else (true, peek_loop queue.data queue.esize 0 pData queue.read)

/-- The scan loop of `queue_find`: `n` iterations left, counter `i`; the
callback gets the `esize` bytes at offset `i * esize`. -/
def find_loop (queue : Queue_t) (needle : List Nat)
    (is_equal : List Nat → List Nat → Bool) : Nat → Nat → Bool
  | 0, _ => false
  | n + 1, i =>
    if is_equal ((queue.data.drop (sz_mul i queue.esize)).take queue.esize) needle then true
    else find_loop queue needle is_equal n (i + 1)

/-- Function `queue_find`. -/
def queue_find (queue : Queue_t) (needle : List Nat)
    (is_equal : List Nat → List Nat → Bool) : Bool :=
  find_loop queue needle is_equal (queue_size queue) 0

/-- Function `queue_flush`. -/
def queue_flush (queue : Queue_t) : Queue_t :=
  let rawSize := sz_mul queue.capacity queue.esize
  { queue with write := 0, read := 0, size := 0, data := zero_fill rawSize 0 queue.data }

/-- One call on a ring queue, with the caller's buffer as it is before the
call: `queue_enqueue`, `queue_denqueue`, `queue_peek`, `queue_find` and
`queue_flush`. -/
inductive QOp where
  | enq (pData : List Nat)
  | deq (pData : List Nat)
  | peek (pData : List Nat)
  | find (needle : List Nat) (is_equal : List Nat → List Nat → Bool)
  | flush

/-- The caller's buffer of a call (none for `queue_flush`). -/
def QOp.buf : QOp → List Nat
  | .enq p => p
  | .deq p => p
  | .peek p => p
  | .find p _ => p
  | .flush => []

/-- Whether the call is `queue_enqueue` or `queue_denqueue`. -/
def QOp.is_queueing : QOp → Bool
  | .enq _ => true
  | .deq _ => true
  | _ => false

/-- Whether the call is `queue_flush`. -/
def QOp.is_flush : QOp → Bool
  | .flush => true
  | _ => false

/-- A run of calls: the queue afterwards, the elements passed to the
successful enqueues and the buffers filled by the successful dequeues, each
in call order. -/
def queue_run : Queue_t → List QOp → Queue_t × List (List Nat) × List (List Nat)
  | q, [] => (q, [], [])
  | q, QOp.enq p :: ops =>
    let r := queue_enqueue q p
    let t := queue_run r.2 ops
    (t.1, (if r.1 then p :: t.2.1 else t.2.1), t.2.2)
  | q, QOp.deq p :: ops =>
    let r := queue_denqueue q p
    let t := queue_run r.2.1 ops
    (t.1, t.2.1, (if r.1 then r.2.2 :: t.2.2 else t.2.2))
  | q, QOp.peek _ :: ops => queue_run q ops
  | q, QOp.find _ _ :: ops => queue_run q ops
  | q, QOp.flush :: ops => queue_run (queue_flush q) ops

/-- Registered callbacks whose allocator always succeeds and hands out blocks
of the requested size filled with `0xAA`. -/
def test_cb : MemCallbacks :=
  { mem_alloc_fn := some (fun _ n => some (List.replicate n 170)), mem_free_fn := some () }

/-- The scenario of the specification on a queue of three one-byte elements:
enqueue `a`, `b`, `c`, `d` (refused), dequeue, enqueue `d`, dequeue four
times (the last one refused). -/
def scenario_ops : List QOp :=
  [.enq [97], .enq [98], .enq [99], .enq [100], .deq [0], .enq [100],
   .deq [0], .deq [0], .deq [0], .deq [0]]

/-- The queue that `queue_create(3, 1, NULL)` returns. -/
def fresh_3_1 : Queue_t :=
  { data := [0, 0, 0], write := 0, read := 0, size := 0, capacity := 3, esize := 1 }

/-- The allocator returns blocks of the size it is asked for. -/
def alloc_sized (cb : MemCallbacks) : Prop :=
  ∀ f, cb.mem_alloc_fn = some f → ∀ k n blk, f k n = some blk → blk.length = n

/-- Whether the caller's buffer of a call holds exactly one element of
`esize` bytes. -/
def QOp.fits (esize : Nat) : QOp → Prop
  | .enq p => p.length = esize
  | .deq p => p.length = esize
  | .peek p => p.length = esize
  | .find _ _ => True
  | .flush => True

/-- The `n` bytes of a ring of `R` bytes met from offset `r` on, wrapping. -/
def ring_bytes (data : List Nat) (R r n : Nat) : List Nat :=
  (List.range n).map (fun j => data.getD ((r + j) % R) 0)


/-- Representation invariant of a ring queue whose stored elements, oldest
first, are `pending`. -/
structure QInv (q : Queue_t) (pending : List (List Nat)) : Prop where
  esize_pos : 1 ≤ q.esize
  raw_lt : q.capacity * q.esize < SIZE_MOD
  data_len : q.data.length = q.capacity * q.esize
  size_eq : q.size = pending.length
  size_le : q.size ≤ q.capacity
  elem_len : ∀ x, x ∈ pending → x.length = q.esize
  read_lt : q.read < q.capacity * q.esize
  read_al : q.esize ∣ q.read
  write_eq : q.write = (q.read + q.size * q.esize) % (q.capacity * q.esize)
  stream : ring_bytes q.data (q.capacity * q.esize) q.read (q.size * q.esize) = pending.flatten

/-! ## uqueue.c -/

/-- `struct UQueue_t`; `compare_cb` is `none` for `NULL`.  The callback gets
the `esize` bytes of the slot it is pointed at and the caller's element. -/
structure UQueue_t where
  data : List Nat
  write : Nat
  read : Nat
  size : Nat
  capacity : Nat
  esize : Nat
  compare_cb : Option (List Nat → List Nat → Bool)

/-- Function `uqueue_create`; `hdr_size` is `sizeof(uqueue_t)`. -/
def uqueue_create (cb : MemCallbacks) (hdr_size : Nat) (capacity esize : Nat)
    (custom_compare : Option (List Nat → List Nat → Bool)) : Option UQueue_t :=
  match custom_compare with
  | none => none
  | some cmp =>
    if cb.mem_free_fn.isNone || cb.mem_alloc_fn.isNone then none
    else
      match cb.mem_alloc_fn with
      | none => none
      | some alloc =>
        match alloc 0 hdr_size with
        | none => none
        | some _ =>
          match alloc 1 (sz_mul capacity esize) with
          | none => none
          | some blk =>
            some { data := zero_fill capacity 0 blk, write := 0, read := 0,
                   capacity := capacity, esize := esize, size := 0, compare_cb := some cmp }

/-- Function `uqueue_is_empty`. -/
def uqueue_is_empty (uqueue : UQueue_t) : Bool :=
  if uqueue.size = 0 then true
  else if sz_sub uqueue.capacity uqueue.size ≥ uqueue.capacity then true else false

/-- Function `uqueue_is_full`. -/
def uqueue_is_full (uqueue : UQueue_t) : Bool :=
  if uqueue.size = uqueue.capacity then true
  else if sz_add uqueue.size uqueue.esize > uqueue.capacity then true else false

/-- Function `uqueue_size`. -/
def uqueue_size (uqueue : UQueue_t) : Nat := uqueue.size / uqueue.esize

/-- Function `uqueue_free_space`. -/
def uqueue_free_space (uqueue : UQueue_t) : Nat :=
  sz_sub uqueue.capacity (uqueue.size / uqueue.esize)

/-- The duplicate scan of `uqueue_enqueue`: `n` iterations left, counter `i`;
`true` when the callback reports a match at some slot. -/
def uqueue_scan (uqueue : UQueue_t) (cmp : List Nat → List Nat → Bool) (pData : List Nat) :
    Nat → Nat → Bool
  | 0, _ => false
  | n + 1, i =>
    if cmp ((uqueue.data.drop (sz_mul i uqueue.esize)).take uqueue.esize) pData then true
    else uqueue_scan uqueue cmp pData n (i + 1)

/-- The copy loop of `uqueue_enqueue`: `n` iterations left, counter `i`;
returns the buffer, the size field and the write index. -/
def uenqueue_loop (capacity : Nat) (pData : List Nat) :
    Nat → Nat → List Nat → Nat → Nat → List Nat × Nat × Nat
  | 0, _, data, size, write => (data, size, write)
  | n + 1, i, data, size, write =>
    uenqueue_loop capacity pData n (i + 1) (data.set write (pData.getD i 0))
      (sz_add size 1) (next_index capacity write)

/-- Function `uqueue_enqueue` on non-null arguments: the result and the queue
afterwards. -/
def uqueue_enqueue (cb : MemCallbacks) (uqueue : UQueue_t) (pData : List Nat) :
    Bool × UQueue_t :=
  if cb.mem_free_fn.isNone || cb.mem_alloc_fn.isNone then (false, uqueue)
  else
    match uqueue.compare_cb with
    | none => (false, uqueue)
    | some cmp =>
      if uqueue_is_full uqueue then (false, uqueue)
      else
        let size := uqueue_size uqueue
        if uqueue_scan uqueue cmp pData size 0 then (true, uqueue)
        else
          let r := uenqueue_loop uqueue.capacity pData uqueue.esize 0
            uqueue.data uqueue.size uqueue.write
          (true, { uqueue with data := r.1, size := r.2.1, write := r.2.2 })

/-- The copy loop of `uqueue_denqueue`: `n` iterations left, counter `i`;
returns the caller's buffer, the size field and the read index. -/
def udenqueue_loop (capacity : Nat) (data : List Nat) :
    Nat → Nat → List Nat → Nat → Nat → List Nat × Nat × Nat
  | 0, _, pData, size, read => (pData, size, read)
  | n + 1, i, pData, size, read =>
    udenqueue_loop capacity data n (i + 1) (pData.set i (data.getD read 0))
      (sz_sub size 1) (next_index capacity read)

/-- Function `uqueue_denqueue` on non-null arguments: the result, the queue
afterwards and the caller's buffer afterwards. -/
def uqueue_denqueue (cb : MemCallbacks) (uqueue : UQueue_t) (pData : List Nat) :
    Bool × UQueue_t × List Nat :=
  if cb.mem_free_fn.isNone || cb.mem_alloc_fn.isNone then (false, uqueue, pData)
  else
    match uqueue.compare_cb with
    | none => (false, uqueue, pData)
    | some _ =>
      if uqueue_is_empty uqueue then (false, uqueue, pData)
      else
        let r := udenqueue_loop uqueue.capacity uqueue.data uqueue.esize 0
          pData uqueue.size uqueue.read
        (true, { uqueue with size := r.2.1, read := r.2.2 }, r.1)

/-- One call on a unique queue, with the caller's buffer as it is before the
call: `uqueue_enqueue` or `uqueue_denqueue`. -/
inductive UOp where
  | enq (pData : List Nat)
  | deq (pData : List Nat)
deriving DecidableEq, Repr

/-- The caller's buffer of a call. -/
def UOp.buf : UOp → List Nat
  | .enq p => p
  | .deq p => p

/-- A run of calls on a unique queue: the queue afterwards, the elements that
the enqueues stored (result `true` and the size field changed) and the buffers
filled by the successful dequeues, each in call order. -/
def uqueue_run (cb : MemCallbacks) :
    UQueue_t → List UOp → UQueue_t × List (List Nat) × List (List Nat)
  | q, [] => (q, [], [])
  | q, UOp.enq p :: ops =>
    let r := uqueue_enqueue cb q p
    let t := uqueue_run cb r.2 ops
    (t.1, (if r.1 && !decide (r.2.size = q.size) then p :: t.2.1 else t.2.1), t.2.2)
  | q, UOp.deq p :: ops =>
    let r := uqueue_denqueue cb q p
    let t := uqueue_run cb r.2.1 ops
    (t.1, t.2.1, (if r.1 then r.2.2 :: t.2.2 else t.2.2))

/-- The elements a unique queue holds, oldest first: the `size / esize`
spans of `esize` bytes met from the read index on, wrapping at `capacity`. -/
def uqueue_contents (q : UQueue_t) : List (List Nat) :=
  (List.range (q.size / q.esize)).map
    (fun j => ring_bytes q.data q.capacity ((q.read + j * q.esize) % q.capacity) q.esize)

/-- Byte equality of two elements, as an equality callback. -/
def bytes_equal (a b : List Nat) : Bool := decide (a = b)

/-- Representation invariant of a unique queue whose stored elements, oldest
first, are `pending`: the ring is the first `capacity` bytes of the buffer and
the size field counts bytes. -/
structure UInv (q : UQueue_t) (pending : List (List Nat)) : Prop where
  esize_pos : 1 ≤ q.esize
  sum_le : q.capacity + q.esize ≤ SIZE_MOD
  data_len : q.capacity ≤ q.data.length
  size_eq : q.size = pending.length * q.esize
  size_le : q.size ≤ q.capacity
  elem_len : ∀ x, x ∈ pending → x.length = q.esize
  read_lt : q.read < q.capacity
  write_eq : q.write = (q.read + q.size) % q.capacity
  stream : ring_bytes q.data q.capacity q.read q.size = pending.flatten
  cmp_some : q.compare_cb.isSome = true

/-- Both memory callbacks are registered. -/
def MemCallbacks.registered (cb : MemCallbacks) : Prop :=
  cb.mem_free_fn.isSome = true ∧ cb.mem_alloc_fn.isSome = true

/-- Index invariant of a ring queue: the part of the representation that does
not depend on the bytes stored. -/
structure QIdx (q : Queue_t) : Prop where
  esize_pos : 1 ≤ q.esize
  raw_lt : q.capacity * q.esize < SIZE_MOD
  data_len : q.data.length = q.capacity * q.esize
  size_le : q.size ≤ q.capacity
  read_lt : q.read < q.capacity * q.esize
  read_al : q.esize ∣ q.read
  write_eq : q.write = (q.read + q.size * q.esize) % (q.capacity * q.esize)

/-- The buffer offsets that a copy loop of `queue_enqueue` or `queue_denqueue`
goes through: the values of the index (`queue->write`, `queue->read`) in `n`
iterations, in order. -/
def ring_offsets (rawSize : Nat) : Nat → Nat → List Nat
  | 0, _ => []
  | n + 1, idx => idx :: ring_offsets rawSize n (next_index rawSize idx)

/-- The buffer offsets that the copy loop of `queue_peek` loads from: the
values of `pBuffer` in `n` iterations, in order. -/
def peek_offsets : Nat → Nat → List Nat
  | 0, _ => []
  | n + 1, pBuffer => pBuffer :: peek_offsets n (pBuffer + 1)

/-- The offsets of `queue->data` that a call of `queue_enqueue` stores to. -/
def queue_enqueue_accesses (queue : Queue_t) : List Nat :=
  if queue_is_full queue then []
  else ring_offsets (sz_mul queue.capacity queue.esize) queue.esize queue.write

/-- The offsets of `queue->data` that a call of `queue_denqueue` loads from. -/
def queue_denqueue_accesses (queue : Queue_t) : List Nat :=
  if queue_is_empty queue then []
  else ring_offsets (sz_mul queue.capacity queue.esize) queue.esize queue.read

/-- The offsets of `queue->data` that a call of `queue_peek` loads from. -/
def queue_peek_accesses (queue : Queue_t) : List Nat :=
  if queue_is_empty queue then [] else peek_offsets queue.esize queue.read

/-- The elements a ring queue holds, oldest first: what `queue_size` calls of
`queue_denqueue` in a row deliver. -/
def queue_drain (q : Queue_t) : List (List Nat) :=
  (queue_run q (List.replicate (queue_size q) (QOp.deq (List.replicate q.esize 0)))).2.2

/-- A capacity whose product with the element size `3` is `2^64 + 5`, that is
`5` in `size_t`. -/
def wrap_capacity_3 : Nat := 6148914691236517207

/-- Index invariant of a unique queue holding `k` elements: the part of the
representation that does not depend on the bytes stored. -/
structure UIdx (q : UQueue_t) (k : Nat) : Prop where
  esize_pos : 1 ≤ q.esize
  sum_le : q.capacity + q.esize ≤ SIZE_MOD
  size_eq : q.size = k * q.esize
  size_le : q.size ≤ q.capacity
  read_ok : q.read < q.capacity ∨ (q.capacity = 0 ∧ q.read = 0)
  write_eq : q.write = (q.read + q.size) % q.capacity
  cmp_some : q.compare_cb.isSome = true

/-- An equality callback that never reports a match. -/
def never_equal (_ _ : List Nat) : Bool := false

/-- What a caller observes of a ring queue after a call: the result of the
call, the caller's buffer after it, and then `queue_size`,
`queue_free_space`, `queue_is_empty` and `queue_is_full`. -/
def queue_observe (res : Bool) (buf : List Nat) (q : Queue_t) :
    Bool × List Nat × Nat × Nat × Bool × Bool :=
  (res, buf, queue_size q, queue_free_space q, queue_is_empty q, queue_is_full q)

/-- What a caller observes of a unique queue after a call: the result of the
call, the caller's buffer after it, and then `uqueue_size`,
`uqueue_free_space`, `uqueue_is_empty` and `uqueue_is_full`. -/
def uqueue_observe (res : Bool) (buf : List Nat) (q : UQueue_t) :
    Bool × List Nat × Nat × Nat × Bool × Bool :=
  (res, buf, uqueue_size q, uqueue_free_space q, uqueue_is_empty q, uqueue_is_full q)

/-- The observations of a run of `queue_enqueue` / `queue_denqueue` calls, one
per call. -/
def queue_trace : Queue_t → List UOp → List (Bool × List Nat × Nat × Nat × Bool × Bool)
  | _, [] => []
  | q, UOp.enq p :: ops =>
    queue_observe (queue_enqueue q p).1 p (queue_enqueue q p).2
      :: queue_trace (queue_enqueue q p).2 ops
  | q, UOp.deq p :: ops =>
    queue_observe (queue_denqueue q p).1 (queue_denqueue q p).2.2 (queue_denqueue q p).2.1
      :: queue_trace (queue_denqueue q p).2.1 ops

/-- The observations of a run of `uqueue_enqueue` / `uqueue_denqueue` calls,
one per call. -/
def uqueue_trace (cb : MemCallbacks) :
    UQueue_t → List UOp → List (Bool × List Nat × Nat × Nat × Bool × Bool)
  | _, [] => []
  | q, UOp.enq p :: ops =>
    uqueue_observe (uqueue_enqueue cb q p).1 p (uqueue_enqueue cb q p).2
      :: uqueue_trace cb (uqueue_enqueue cb q p).2 ops
  | q, UOp.deq p :: ops =>
    uqueue_observe (uqueue_denqueue cb q p).1 (uqueue_denqueue cb q p).2.2
        (uqueue_denqueue cb q p).2.1
      :: uqueue_trace cb (uqueue_denqueue cb q p).2.1 ops

/-- Simulation between a unique queue and a ring queue of one-byte elements:
the same buffer, indices, size and capacity. -/
structure USim (u : UQueue_t) (q : Queue_t) : Prop where
  data_eq : u.data = q.data
  write_eq : u.write = q.write
  read_eq : u.read = q.read
  size_eq : u.size = q.size
  cap_eq : u.capacity = q.capacity
  uesize : u.esize = 1
  qesize : q.esize = 1
  size_le : q.size ≤ q.capacity
  cap_lt : q.capacity < SIZE_MOD
  cmp_some : u.compare_cb.isSome = true

/-- Index invariant of a ring queue in terms of `rawSize`, the product
`capacity * esize` as the code computes it (in `size_t`), for a buffer that is
not empty and an element size that divides `rawSize`. -/
structure QWrap (q : Queue_t) : Prop where
  esize_pos : 1 ≤ q.esize
  cap_lt : q.capacity < SIZE_MOD
  raw_pos : 0 < sz_mul q.capacity q.esize
  esize_dvd : q.esize ∣ sz_mul q.capacity q.esize
  data_len : q.data.length = sz_mul q.capacity q.esize
  size_le : q.size ≤ q.capacity
  read_lt : q.read < sz_mul q.capacity q.esize
  read_al : q.esize ∣ q.read
  write_eq : q.write = (q.read + q.size * q.esize) % sz_mul q.capacity q.esize


/-! ## Arithmetic of `size_t` -/

theorem sz_add_eq (a b : Nat) (h : a + b < SIZE_MOD) : sz_add a b = a + b :=
  Nat.mod_eq_of_lt h

theorem sz_mul_eq (a b : Nat) (h : a * b < SIZE_MOD) : sz_mul a b = a * b :=
  Nat.mod_eq_of_lt h

theorem sz_sub_eq (a b : Nat) (hb : b ≤ a) (ha : a < SIZE_MOD) : sz_sub a b = a - b := by
  unfold sz_sub
  generalize SIZE_MOD = M at *
  rw [Nat.mod_eq_of_lt (by omega : b < M), (by omega : a + M - b = a - b + M),
    Nat.add_mod_right, Nat.mod_eq_of_lt (by omega)]

theorem next_index_eq (R i : Nat) (h2 : R < SIZE_MOD) (hi : i < R) :
    next_index R i = (i + 1) % R := by
  unfold next_index
  rw [sz_sub_eq R 1 (by omega) h2, sz_add_eq i 1 (by omega)]
  by_cases h : i + 1 = R
  · rw [if_pos (by omega), h, Nat.mod_self]
  · rw [if_neg (by omega), Nat.mod_eq_of_lt (by omega)]

theorem mod_succ_add (R r j : Nat) : ((r + 1) % R + j) % R = (r + (j + 1)) % R := by
  rw [Nat.mod_add_mod]; congr 1; omega

/-! ## Bytes of a ring -/

theorem ring_bytes_length (data : List Nat) (R r n : Nat) :
    (ring_bytes data R r n).length = n := by
  simp [ring_bytes]

theorem ring_bytes_succ (data : List Nat) (R r n : Nat) (hr : r < R) :
    ring_bytes data R r (n + 1) = data.getD r 0 :: ring_bytes data R ((r + 1) % R) n := by
  unfold ring_bytes
  rw [List.range_succ_eq_map, List.map_cons, List.map_map, Nat.add_zero, Nat.mod_eq_of_lt hr]
  congr 1
  apply List.map_congr_left
  intro j _
  simp only [Function.comp, mod_succ_add]

theorem ring_bytes_add (data : List Nat) (R r a b : Nat) :
    ring_bytes data R r (a + b) = ring_bytes data R r a ++ ring_bytes data R ((r + a) % R) b := by
  unfold ring_bytes
  rw [List.range_add, List.map_append, List.map_map]
  congr 1
  apply List.map_congr_left
  intro j _
  simp only [Function.comp]
  rw [Nat.mod_add_mod, Nat.add_assoc]


theorem mod_ne_of_lt (R a b : Nat) (h1 : a < b) (h2 : b < a + R) : a % R ≠ b % R := by
  intro h
  have h3 : (b - a) % R = 0 := Nat.sub_mod_eq_zero_of_mod_eq h.symm
  have h4 : R ∣ b - a := Nat.dvd_of_mod_eq_zero h3
  have h5 : R ≤ b - a := Nat.le_of_dvd (by omega) h4
  omega

theorem getD_set_eq (l : List Nat) (w v : Nat) (hw : w < l.length) :
    (l.set w v).getD w 0 = v := by
  simp [List.getD_eq_getElem?_getD, List.getElem?_set, hw]

theorem getD_set_ne (l : List Nat) (w j v : Nat) (h : j ≠ w) :
    (l.set w v).getD j 0 = l.getD j 0 := by
  simp [List.getD_eq_getElem?_getD, List.getElem?_set, Ne.symm h]

/-! ## The copy loop of `queue_enqueue` -/

theorem enqueue_loop_length (R : Nat) (pData : List Nat) (n i : Nat) (data : List Nat) (w : Nat) :
    (enqueue_loop R pData n i data w).1.length = data.length := by
  induction n generalizing i data w with
  | zero => rfl
  | succ n ih => rw [enqueue_loop, ih, List.length_set]

theorem enqueue_loop_write (R : Nat) (pData : List Nat) (hR : R < SIZE_MOD) (n i : Nat)
    (data : List Nat) (w : Nat) (hw : w < R) :
    (enqueue_loop R pData n i data w).2 = (w + n) % R := by
  induction n generalizing i data w with
  | zero => simp [enqueue_loop, Nat.mod_eq_of_lt hw]
  | succ n ih =>
    rw [enqueue_loop, ih _ _ _ (by rw [next_index_eq R w hR hw]; exact Nat.mod_lt _ (by omega)),
      next_index_eq R w hR hw, Nat.mod_add_mod, Nat.add_assoc, Nat.add_comm 1 n]

theorem enqueue_loop_other (R : Nat) (pData : List Nat) (hR : R < SIZE_MOD) (n i : Nat)
    (data : List Nat) (w : Nat) (hw : w < R) (j : Nat)
    (hj : ∀ k, k < n → j ≠ (w + k) % R) :
    (enqueue_loop R pData n i data w).1.getD j 0 = data.getD j 0 := by
  induction n generalizing i data w with
  | zero => rfl
  | succ n ih =>
    have hw1 : next_index R w < R := by
      rw [next_index_eq R w hR hw]; exact Nat.mod_lt _ (by omega)
    rw [enqueue_loop, ih _ _ _ hw1, getD_set_ne]
    · have := hj 0 (by omega)
      rwa [Nat.add_zero, Nat.mod_eq_of_lt hw] at this
    · intro k hk
      rw [next_index_eq R w hR hw, mod_succ_add]
      exact hj (k + 1) (by omega)

theorem enqueue_loop_written (R : Nat) (pData : List Nat) (hR : R < SIZE_MOD) (n i : Nat)
    (data : List Nat) (w : Nat) (hw : w < R) (hlen : R ≤ data.length) (hn : n ≤ R)
    (k : Nat) (hk : k < n) :
    (enqueue_loop R pData n i data w).1.getD ((w + k) % R) 0 = pData.getD (i + k) 0 := by
  induction n generalizing i data w k with
  | zero => omega
  | succ n ih =>
    have hw1 : next_index R w < R := by
      rw [next_index_eq R w hR hw]; exact Nat.mod_lt _ (by omega)
    rw [enqueue_loop]
    cases k with
    | zero =>
      show (enqueue_loop R pData n (i + 1) (data.set w (pData.getD i 0))
        (next_index R w)).1.getD (w % R) 0 = pData.getD i 0
      rw [Nat.mod_eq_of_lt hw, enqueue_loop_other R pData hR n _ _ _ hw1,
        getD_set_eq _ _ _ (by omega)]
      intro k hk
      rw [next_index_eq R w hR hw, mod_succ_add]
      have := mod_ne_of_lt R w (w + (k + 1)) (by omega) (by omega)
      rwa [Nat.mod_eq_of_lt hw] at this
    | succ k =>
      have := ih (i + 1) (data.set w (pData.getD i 0)) (next_index R w) hw1
        (by rw [List.length_set]; exact hlen) (by omega) k (by omega)
      rw [next_index_eq R w hR hw, mod_succ_add] at this
      rw [next_index_eq R w hR hw, this]
      congr 1
      omega

/-- Appending `n` bytes at the end of a stream of `cnt` bytes that starts at
`r` gives the stream followed by the copied bytes. -/
theorem enqueue_loop_stream (R : Nat) (pData : List Nat) (hR : R < SIZE_MOD) (n i : Nat)
    (data : List Nat) (r cnt : Nat) (hr : r < R) (hlen : R ≤ data.length)
    (hn : cnt + n ≤ R) :
    ring_bytes (enqueue_loop R pData n i data ((r + cnt) % R)).1 R r (cnt + n)
      = ring_bytes data R r cnt ++ (List.range n).map (fun k => pData.getD (i + k) 0) := by
  have hw : (r + cnt) % R < R := Nat.mod_lt _ (by omega)
  rw [ring_bytes_add]
  congr 1
  · unfold ring_bytes
    apply List.map_congr_left
    intro j hj
    rw [List.mem_range] at hj
    apply enqueue_loop_other R pData hR n i data _ hw
    intro k hk
    rw [Nat.mod_add_mod]
    exact mod_ne_of_lt R (r + j) (r + cnt + k) (by omega) (by omega)
  · unfold ring_bytes
    apply List.map_congr_left
    intro k hk
    rw [List.mem_range] at hk
    exact enqueue_loop_written R pData hR n i data _ hw hlen (by omega) k hk


theorem take_succ_set (p : List Nat) (i v : Nat) (hi : i < p.length) :
    (p.set i v).take (i + 1) = p.take i ++ [v] := by
  apply List.ext_getElem?
  intro k
  rw [List.getElem?_take, List.getElem?_set]
  by_cases h1 : k < i
  · rw [if_pos (by omega), if_neg (by omega), List.getElem?_append_left (by
      rw [List.length_take]; omega), List.getElem?_take, if_pos h1]
  · by_cases h2 : k = i
    · subst h2
      rw [if_pos (by omega), if_pos rfl, if_pos hi, List.getElem?_append_right (by
        rw [List.length_take]; omega)]
      simp [List.length_take, Nat.min_eq_left (Nat.le_of_lt hi)]
    · rw [if_neg (by omega), List.getElem?_append_right (by rw [List.length_take]; omega)]
      rw [List.length_take, Nat.min_eq_left (Nat.le_of_lt hi)]
      have : k - i = (k - i - 1) + 1 := by omega
      rw [this]
      rfl

/-! ## The copy loops of `queue_denqueue` and `queue_peek` -/

theorem denqueue_loop_read (R : Nat) (data : List Nat) (hR : R < SIZE_MOD) (n i : Nat)
    (p : List Nat) (r : Nat) (hr : r < R) :
    (denqueue_loop R data n i p r).2 = (r + n) % R := by
  induction n generalizing i p r with
  | zero => simp [denqueue_loop, Nat.mod_eq_of_lt hr]
  | succ n ih =>
    rw [denqueue_loop, ih _ _ _ (by rw [next_index_eq R r hR hr]; exact Nat.mod_lt _ (by omega)),
      next_index_eq R r hR hr, Nat.mod_add_mod, Nat.add_assoc, Nat.add_comm 1 n]

theorem denqueue_loop_out (R : Nat) (data : List Nat) (hR : R < SIZE_MOD) (n i : Nat)
    (p : List Nat) (r : Nat) (hr : r < R) (hp : i + n ≤ p.length) :
    (denqueue_loop R data n i p r).1 = p.take i ++ ring_bytes data R r n ++ p.drop (i + n) := by
  induction n generalizing i p r with
  | zero => simp [denqueue_loop, ring_bytes]
  | succ n ih =>
    rw [denqueue_loop, ih _ _ _ (by rw [next_index_eq R r hR hr]; exact Nat.mod_lt _ (by omega))
      (by rw [List.length_set]; omega), take_succ_set _ _ _ (by omega),
      List.drop_set_of_lt _ _ (by omega), ring_bytes_succ _ _ _ _ hr, next_index_eq R r hR hr]
    simp [Nat.add_assoc, Nat.add_comm 1 n]

theorem peek_loop_out (data : List Nat) (n i : Nat) (p : List Nat) (b : Nat)
    (hp : i + n ≤ p.length) :
    peek_loop data n i p b
      = p.take i ++ (List.range n).map (fun j => data.getD (b + j) 0) ++ p.drop (i + n) := by
  induction n generalizing i p b with
  | zero => simp [peek_loop]
  | succ n ih =>
    rw [peek_loop, ih _ _ _ (by rw [List.length_set]; omega), take_succ_set _ _ _ (by omega),
      List.drop_set_of_lt _ _ (by omega), List.range_succ_eq_map, List.map_cons, List.map_map]
    simp [Nat.add_assoc, Nat.add_comm 1 n, Function.comp_def, Nat.add_comm 1]

/-- Without a wrap inside the span the ring bytes are consecutive bytes. -/
theorem ring_bytes_no_wrap (data : List Nat) (R r n : Nat) (h : r + n ≤ R) :
    ring_bytes data R r n = (List.range n).map (fun j => data.getD (r + j) 0) := by
  unfold ring_bytes
  apply List.map_congr_left
  intro j hj
  rw [List.mem_range] at hj
  rw [Nat.mod_eq_of_lt (by omega)]


/-! ## The zero-fill loop -/

theorem zero_fill_eq (n i : Nat) (data : List Nat) (h : i + n ≤ data.length) :
    zero_fill n i data = data.take i ++ List.replicate n 0 ++ data.drop (i + n) := by
  induction n generalizing i data with
  | zero => simp [zero_fill]
  | succ n ih =>
    rw [zero_fill, ih _ _ (by rw [List.length_set]; omega), take_succ_set _ _ _ (by omega),
      List.drop_set_of_lt _ _ (by omega), List.replicate_succ]
    simp [Nat.add_assoc, Nat.add_comm 1 n]

theorem zero_fill_all (data : List Nat) :
    zero_fill data.length 0 data = List.replicate data.length 0 := by
  rw [zero_fill_eq _ _ _ (by omega)]
  simp

theorem range_map_getD (x : List Nat) :
    (List.range x.length).map (fun k => x.getD (0 + k) 0) = x := by
  apply List.ext_getElem
  · simp
  · intro k h1 h2
    simp [List.getD_eq_getElem?_getD, List.getElem?_eq_getElem h2]

theorem ring_bytes_replicate (n R r k : Nat) :
    ring_bytes (List.replicate n 0) R r k = List.replicate k 0 := by
  unfold ring_bytes
  apply List.ext_getElem
  · simp
  · intro j h1 h2
    simp only [List.getElem_map, List.getElem_replicate, List.getD_eq_getElem?_getD,
      List.getElem?_replicate]
    split <;> rfl

/-! ## The representation invariant of the ring queue -/

theorem QInv.aligned_span {q : Queue_t} {p : List (List Nat)} (h : QInv q p) :
    q.read + q.esize ≤ q.capacity * q.esize := by
  obtain ⟨k, hk⟩ := h.read_al
  have h1 := h.read_lt
  rw [hk, Nat.mul_comm q.esize k] at h1
  have h2 : k < q.capacity := Nat.lt_of_mul_lt_mul_right h1
  have h3 : (k + 1) * q.esize ≤ q.capacity * q.esize := Nat.mul_le_mul_right _ h2
  rw [hk, Nat.mul_comm q.esize k]
  rw [Nat.add_mul, Nat.one_mul] at h3
  exact h3

theorem QInv.capacity_lt {q : Queue_t} {p : List (List Nat)} (h : QInv q p) :
    q.capacity < SIZE_MOD := by
  have h1 := h.raw_lt
  have h2 : q.capacity * 1 ≤ q.capacity * q.esize := Nat.mul_le_mul_left _ h.esize_pos
  omega

theorem queue_create_inv (cb : MemCallbacks) (hdr c e : Nat) (q : Queue_t)
    (hcb : alloc_sized cb) (hc : 1 ≤ c) (he : 1 ≤ e) (hraw : c * e < SIZE_MOD)
    (hq : queue_create cb hdr c e = some q) :
    QInv q [] ∧ q.capacity = c ∧ q.esize = e := by
  unfold queue_create at hq
  simp only [sz_mul_eq c e hraw] at hq
  split at hq
  · cases hq
  · split at hq
    · cases hq
    · rename_i alloc halloc
      split at hq
      · cases hq
      · split at hq
        · cases hq
        · rename_i blk hblk
          have hlen : blk.length = c * e := hcb alloc halloc 1 (c * e) blk hblk
          have hpos : 0 < c * e := Nat.mul_pos hc he
          injection hq with hq
          subst hq
          have hz : zero_fill (c * e) 0 blk = List.replicate (c * e) 0 := by
            have := zero_fill_all blk
            rwa [hlen] at this
          refine ⟨⟨he, hraw, ?_, rfl, Nat.zero_le _, ?_, hpos, Nat.dvd_zero _, ?_, ?_⟩, rfl, rfl⟩
          · simp [hz]
          · intro x hx; cases hx
          · simp
          · simp [ring_bytes]

theorem queue_flush_inv (q : Queue_t) (p : List (List Nat)) (h : QInv q p) :
    QInv (queue_flush q) [] ∧ (queue_flush q).capacity = q.capacity
      ∧ (queue_flush q).esize = q.esize := by
  have hz : zero_fill (q.capacity * q.esize) 0 q.data = List.replicate (q.capacity * q.esize) 0 := by
    have := zero_fill_all q.data
    rwa [h.data_len] at this
  have hpos : 0 < q.capacity * q.esize := Nat.lt_of_le_of_lt (Nat.zero_le _) h.read_lt
  unfold queue_flush
  simp only [sz_mul_eq _ _ h.raw_lt, hz]
  refine ⟨⟨h.esize_pos, h.raw_lt, ?_, rfl, Nat.zero_le _, ?_, hpos, Nat.dvd_zero _, ?_, ?_⟩,
    trivial, trivial⟩
  · simp
  · intro x hx; cases hx
  · simp
  · simp [ring_bytes]

theorem queue_enqueue_inv (q : Queue_t) (p : List (List Nat)) (x : List Nat) (h : QInv q p)
    (hx : x.length = q.esize) (hnf : q.size ≠ q.capacity) :
    (queue_enqueue q x).1 = true ∧ QInv (queue_enqueue q x).2 (p ++ [x])
      ∧ (queue_enqueue q x).2.capacity = q.capacity ∧ (queue_enqueue q x).2.esize = q.esize := by
  have hlt : q.size < q.capacity := Nat.lt_of_le_of_ne h.size_le hnf
  have hcap := h.capacity_lt
  have hmul : (q.size + 1) * q.esize ≤ q.capacity * q.esize := Nat.mul_le_mul_right _ hlt
  have hcnt : q.size * q.esize + q.esize ≤ q.capacity * q.esize := by
    rw [Nat.add_mul, Nat.one_mul] at hmul; exact hmul
  unfold queue_enqueue queue_is_full
  rw [if_neg hnf]
  simp only [Bool.false_eq_true, if_false, sz_mul_eq _ _ h.raw_lt,
    sz_add_eq q.size 1 (by omega)]
  refine ⟨trivial, ⟨h.esize_pos, h.raw_lt, ?_, ?_, hlt, ?_, h.read_lt, h.read_al, ?_, ?_⟩,
    trivial, trivial⟩
  · show (enqueue_loop _ x q.esize 0 q.data q.write).1.length = _
    rw [enqueue_loop_length]; exact h.data_len
  · show q.size + 1 = (p ++ [x]).length
    rw [List.length_append, h.size_eq]; rfl
  · intro y hy
    rw [List.mem_append, List.mem_singleton] at hy
    rcases hy with hy | hy
    · exact h.elem_len y hy
    · rw [hy]; exact hx
  · show (enqueue_loop _ x q.esize 0 q.data q.write).2 = _
    rw [h.write_eq, enqueue_loop_write _ _ h.raw_lt _ _ _ _ (Nat.mod_lt _ (by
      have := h.read_lt; omega)), Nat.mod_add_mod, Nat.add_mul, Nat.one_mul, Nat.add_assoc]
  · show ring_bytes (enqueue_loop _ x q.esize 0 q.data q.write).1 _ q.read
      ((q.size + 1) * q.esize) = _
    rw [h.write_eq, Nat.add_mul, Nat.one_mul,
      enqueue_loop_stream _ x h.raw_lt q.esize 0 q.data q.read _ h.read_lt
        (Nat.le_of_eq h.data_len.symm) hcnt,
      h.stream, ← hx, range_map_getD]
    simp

theorem queue_enqueue_full (q : Queue_t) (x : List Nat) (hf : q.size = q.capacity) :
    queue_enqueue q x = (false, q) := by
  unfold queue_enqueue queue_is_full
  rw [if_pos hf]
  rfl

theorem QInv.head_bytes {q : Queue_t} {x : List Nat} {p : List (List Nat)}
    (h : QInv q (x :: p)) :
    ring_bytes q.data (q.capacity * q.esize) q.read q.esize = x
      ∧ ring_bytes q.data (q.capacity * q.esize) ((q.read + q.esize) % (q.capacity * q.esize))
          (p.length * q.esize) = p.flatten := by
  have hs := h.stream
  have hxl : x.length = q.esize := h.elem_len x (List.mem_cons_self _ _)
  rw [h.size_eq, List.length_cons, Nat.add_mul, Nat.one_mul, Nat.add_comm, ring_bytes_add,
    List.flatten_cons] at hs
  exact List.append_inj hs (by rw [ring_bytes_length, hxl])

theorem queue_denqueue_inv (q : Queue_t) (x : List Nat) (p : List (List Nat)) (out : List Nat)
    (h : QInv q (x :: p)) (hout : out.length = q.esize) :
    (queue_denqueue q out).1 = true ∧ (queue_denqueue q out).2.2 = x
      ∧ QInv (queue_denqueue q out).2.1 p
      ∧ (queue_denqueue q out).2.1.capacity = q.capacity
      ∧ (queue_denqueue q out).2.1.esize = q.esize := by
  have hsz : q.size = p.length + 1 := h.size_eq
  have hcap := h.capacity_lt
  have hle := h.size_le
  have hpos : 0 < q.capacity * q.esize := Nat.lt_of_le_of_lt (Nat.zero_le _) h.read_lt
  obtain ⟨hhead, htail⟩ := h.head_bytes
  unfold queue_denqueue queue_is_empty
  rw [if_neg (by omega : ¬ q.size = 0)]
  simp only [Bool.false_eq_true, if_false, sz_mul_eq _ _ h.raw_lt,
    sz_sub_eq q.size 1 (by omega) (by omega)]
  have hread : (denqueue_loop (q.capacity * q.esize) q.data q.esize 0 out q.read).2
      = (q.read + q.esize) % (q.capacity * q.esize) :=
    denqueue_loop_read _ _ h.raw_lt _ _ _ _ h.read_lt
  refine ⟨trivial, ?_, ⟨h.esize_pos, h.raw_lt, h.data_len, ?_, ?_, ?_, ?_, ?_, ?_, ?_⟩,
    trivial, trivial⟩
  · show (denqueue_loop _ q.data q.esize 0 out q.read).1 = x
    rw [denqueue_loop_out _ _ h.raw_lt _ _ _ _ h.read_lt (by omega), hhead]
    simp [← hout]
  · show q.size - 1 = p.length
    omega
  · show q.size - 1 ≤ q.capacity
    omega
  · intro y hy
    exact h.elem_len y (List.mem_cons_of_mem _ hy)
  · show (denqueue_loop _ q.data q.esize 0 out q.read).2 < _
    rw [hread]; exact Nat.mod_lt _ hpos
  · show q.esize ∣ (denqueue_loop _ q.data q.esize 0 out q.read).2
    rw [hread]
    exact (Nat.dvd_mod_iff (Dvd.intro_left _ rfl)).2 (Nat.dvd_add h.read_al (Nat.dvd_refl _))
  · show q.write = ((denqueue_loop _ q.data q.esize 0 out q.read).2 + (q.size - 1) * q.esize) % _
    rw [hread, h.write_eq, Nat.mod_add_mod, hsz]
    congr 1
    rw [Nat.add_sub_cancel, Nat.add_mul, Nat.one_mul]
    omega
  · show ring_bytes q.data _ (denqueue_loop _ q.data q.esize 0 out q.read).2
      ((q.size - 1) * q.esize) = p.flatten
    rw [hread, hsz, Nat.add_sub_cancel]
    exact htail

theorem queue_denqueue_empty (q : Queue_t) (out : List Nat) (he : q.size = 0) :
    queue_denqueue q out = (false, q, out) := by
  unfold queue_denqueue queue_is_empty
  rw [if_pos he]
  rfl

theorem queue_peek_inv (q : Queue_t) (x : List Nat) (p : List (List Nat)) (out : List Nat)
    (h : QInv q (x :: p)) (hout : out.length = q.esize) :
    queue_peek q out = (true, x) := by
  have hsz : q.size = p.length + 1 := h.size_eq
  obtain ⟨hhead, _⟩ := h.head_bytes
  unfold queue_peek queue_is_empty
  rw [if_neg (by omega : ¬ q.size = 0)]
  simp only [Bool.false_eq_true, if_false]
  rw [peek_loop_out _ _ _ _ _ (by omega), ← ring_bytes_no_wrap _ _ _ _ h.aligned_span, hhead]
  simp [← hout]

/-! ## Runs of calls on the ring queue -/

theorem queue_run_fifo (ops : List QOp) (q : Queue_t) (p : List (List Nat)) (e : Nat)
    (h : QInv q p) (he : q.esize = e) (hfit : ∀ op, op ∈ ops → op.fits e)
    (hnf : ∀ op, op ∈ ops → op.is_flush = false) :
    ∃ p', QInv (queue_run q ops).1 p'
      ∧ p ++ (queue_run q ops).2.1 = (queue_run q ops).2.2 ++ p'
      ∧ (queue_run q ops).1.capacity = q.capacity ∧ (queue_run q ops).1.esize = q.esize := by
  induction ops generalizing q p with
  | nil => exact ⟨p, h, by simp [queue_run], rfl, rfl⟩
  | cons op ops ih =>
    have hfit' : ∀ op, op ∈ ops → op.fits e := fun o ho => hfit o (List.mem_cons_of_mem _ ho)
    have hnf' : ∀ op, op ∈ ops → op.is_flush = false :=
      fun o ho => hnf o (List.mem_cons_of_mem _ ho)
    have hop := hfit op (List.mem_cons_self _ _)
    cases op with
    | enq x =>
      have hx : x.length = q.esize := by rw [he]; exact hop
      by_cases hfull : q.size = q.capacity
      · obtain ⟨p', h1, h2, h3, h4⟩ := ih q p h he hfit' hnf'
        refine ⟨p', ?_⟩
        simp only [queue_run, queue_enqueue_full q x hfull]
        exact ⟨h1, h2, h3, h4⟩
      · obtain ⟨k1, k2, k3, k4⟩ := queue_enqueue_inv q p x h hx hfull
        obtain ⟨p', h1, h2, h3, h4⟩ := ih _ _ k2 (by rw [k4, he]) hfit' hnf'
        refine ⟨p', ?_⟩
        simp only [queue_run, k1, if_true]
        refine ⟨h1, ?_, by rw [h3, k3], by rw [h4, k4]⟩
        rw [← h2]; simp
    | deq out =>
      have hout : out.length = q.esize := by rw [he]; exact hop
      cases p with
      | nil =>
        have hsz : q.size = 0 := h.size_eq
        obtain ⟨p', h1, h2, h3, h4⟩ := ih q [] h he hfit' hnf'
        refine ⟨p', ?_⟩
        simp only [queue_run, queue_denqueue_empty q out hsz]
        exact ⟨h1, h2, h3, h4⟩
      | cons x p =>
        obtain ⟨k1, k2, k3, k4, k5⟩ := queue_denqueue_inv q x p out h hout
        obtain ⟨p', h1, h2, h3, h4⟩ := ih _ _ k3 (by rw [k5, he]) hfit' hnf'
        refine ⟨p', ?_⟩
        simp only [queue_run, k1, if_true, k2]
        refine ⟨h1, ?_, by rw [h3, k4], by rw [h4, k5]⟩
        rw [List.cons_append, h2]; simp
    | peek out => simpa only [queue_run] using ih q p h he hfit' hnf'
    | find n f => simpa only [queue_run] using ih q p h he hfit' hnf'
    | flush =>
      have := hnf QOp.flush (List.mem_cons_self _ _)
      simp [QOp.is_flush] at this

theorem queue_run_inv (ops : List QOp) (q : Queue_t) (p : List (List Nat)) (e : Nat)
    (h : QInv q p) (he : q.esize = e) (hfit : ∀ op, op ∈ ops → op.fits e) :
    ∃ p', QInv (queue_run q ops).1 p'
      ∧ (queue_run q ops).1.capacity = q.capacity ∧ (queue_run q ops).1.esize = q.esize := by
  induction ops generalizing q p with
  | nil => exact ⟨p, h, rfl, rfl⟩
  | cons op ops ih =>
    have hfit' : ∀ op, op ∈ ops → op.fits e := fun o ho => hfit o (List.mem_cons_of_mem _ ho)
    have hop := hfit op (List.mem_cons_self _ _)
    cases op with
    | enq x =>
      have hx : x.length = q.esize := by rw [he]; exact hop
      by_cases hfull : q.size = q.capacity
      · simpa only [queue_run, queue_enqueue_full q x hfull] using ih q p h he hfit'
      · obtain ⟨_, k2, k3, k4⟩ := queue_enqueue_inv q p x h hx hfull
        obtain ⟨p', h1, h3, h4⟩ := ih _ _ k2 (by rw [k4, he]) hfit'
        exact ⟨p', by simpa only [queue_run] using h1, by simpa only [queue_run, k3] using h3,
          by simpa only [queue_run, k4] using h4⟩
    | deq out =>
      have hout : out.length = q.esize := by rw [he]; exact hop
      cases p with
      | nil =>
        have hsz : q.size = 0 := h.size_eq
        simpa only [queue_run, queue_denqueue_empty q out hsz] using ih q [] h he hfit'
      | cons x p =>
        obtain ⟨_, _, k3, k4, k5⟩ := queue_denqueue_inv q x p out h hout
        obtain ⟨p', h1, h3, h4⟩ := ih _ _ k3 (by rw [k5, he]) hfit'
        exact ⟨p', by simpa only [queue_run] using h1, by simpa only [queue_run, k4] using h3,
          by simpa only [queue_run, k5] using h4⟩
    | peek out => simpa only [queue_run] using ih q p h he hfit'
    | find n f => simpa only [queue_run] using ih q p h he hfit'
    | flush =>
      obtain ⟨k2, k3, k4⟩ := queue_flush_inv q p h
      obtain ⟨p', h1, h3, h4⟩ := ih _ _ k2 (by rw [k4, he]) hfit'
      exact ⟨p', by simpa only [queue_run] using h1, by simpa only [queue_run, k3] using h3,
        by simpa only [queue_run, k4] using h4⟩

theorem test_cb_sized : alloc_sized test_cb := by
  intro f hf k n blk hblk
  simp only [test_cb, Option.some.injEq] at hf
  subst hf
  simp only [Option.some.injEq] at hblk
  subst hblk
  exact List.length_replicate _ _

theorem queue_create_fields (cb : MemCallbacks) (hdr c e : Nat) (q : Queue_t)
    (hq : queue_create cb hdr c e = some q) :
    q.size = 0 ∧ q.capacity = c ∧ q.esize = e ∧ q.read = 0 ∧ q.write = 0 := by
  unfold queue_create at hq
  dsimp only at hq
  split at hq
  · cases hq
  · split at hq
    · cases hq
    · split at hq
      · cases hq
      · split at hq
        · cases hq
        · injection hq with hq
          subst hq
          exact ⟨rfl, rfl, rfl, rfl, rfl⟩

theorem queue_run_size (ops : List QOp) (q : Queue_t) (hle : q.size ≤ q.capacity)
    (hcap : q.capacity < SIZE_MOD) (hnf : ∀ op, op ∈ ops → op.is_flush = false) :
    (queue_run q ops).1.size + (queue_run q ops).2.2.length
        = q.size + (queue_run q ops).2.1.length
      ∧ (queue_run q ops).1.size ≤ q.capacity := by
  induction ops generalizing q with
  | nil => simp [queue_run, hle]
  | cons op ops ih =>
    have hnf' : ∀ op, op ∈ ops → op.is_flush = false :=
      fun o ho => hnf o (List.mem_cons_of_mem _ ho)
    cases op with
    | enq x =>
      by_cases hfull : q.size = q.capacity
      · simpa only [queue_run, queue_enqueue_full q x hfull] using ih q hle hcap hnf'
      · have hlt : q.size < q.capacity := Nat.lt_of_le_of_ne hle hfull
        have h1 : (queue_enqueue q x).1 = true := by
          unfold queue_enqueue queue_is_full; rw [if_neg hfull]; rfl
        have h2 : (queue_enqueue q x).2.size = q.size + 1 := by
          unfold queue_enqueue queue_is_full; rw [if_neg hfull]
          exact sz_add_eq q.size 1 (by omega)
        have h3 : (queue_enqueue q x).2.capacity = q.capacity := by
          unfold queue_enqueue queue_is_full; rw [if_neg hfull]; rfl
        obtain ⟨k1, k2⟩ := ih (queue_enqueue q x).2 (by rw [h2, h3]; omega) (by rw [h3]; exact hcap) hnf'
        simp only [queue_run, h1, if_true, List.length_cons]
        rw [h2] at k1; rw [h3] at k2
        exact ⟨by omega, k2⟩
    | deq out =>
      by_cases hemp : q.size = 0
      · simpa only [queue_run, queue_denqueue_empty q out hemp] using ih q hle hcap hnf'
      · have h1 : (queue_denqueue q out).1 = true := by
          unfold queue_denqueue queue_is_empty; rw [if_neg hemp]; rfl
        have h2 : (queue_denqueue q out).2.1.size = q.size - 1 := by
          unfold queue_denqueue queue_is_empty; rw [if_neg hemp]
          exact sz_sub_eq q.size 1 (by omega) (by omega)
        have h3 : (queue_denqueue q out).2.1.capacity = q.capacity := by
          unfold queue_denqueue queue_is_empty; rw [if_neg hemp]; rfl
        obtain ⟨k1, k2⟩ := ih (queue_denqueue q out).2.1 (by rw [h2, h3]; omega)
          (by rw [h3]; exact hcap) hnf'
        simp only [queue_run, h1, if_true, List.length_cons]
        rw [h2] at k1; rw [h3] at k2
        exact ⟨by omega, k2⟩
    | peek out => simpa only [queue_run] using ih q hle hcap hnf'
    | find n f => simpa only [queue_run] using ih q hle hcap hnf'
    | flush =>
      have := hnf QOp.flush (List.mem_cons_self _ _)
      simp [QOp.is_flush] at this

/-! ## Ring queue: the claims -/

/-- C1 (as stated, refuted): with capacity `2^63 + 1` and element size `2` the
byte size of the buffer wraps to `2` in `size_t`, so the queue created holds
one element's worth of bytes while `capacity` admits more: after enqueueing
`[1,2]` and `[3,4]` (both succeed, every access inside the two-byte buffer)
the first dequeue returns `[3,4]`, which is not a prefix of the enqueued
elements. -/
theorem queue_fifo_counterexample :
    (queue_create test_cb 48 9223372036854775809 2).map
        (fun q => (queue_run q [QOp.enq [1, 2], QOp.enq [3, 4], QOp.deq [0, 0]]).2)
      = some ([[1, 2], [3, 4]], [[3, 4]])
    ∧ ¬ ([[3, 4]] <+: [[1, 2], [3, 4]]) := by
  decide

/-- C1 (amended): for every queue created with capacity >= 1 and element size
>= 1 whose byte size `capacity * esize` does not overflow `size_t`, and every
sequence of `queue_enqueue` / `queue_denqueue` calls on element-sized buffers,
the buffers filled by the successful dequeues are, in order, a prefix of the
elements passed to the successful enqueues. -/
theorem queue_fifo (cb : MemCallbacks) (hdr c e : Nat) (q : Queue_t) (ops : List QOp)
    (hcb : alloc_sized cb) (hc : 1 ≤ c) (he : 1 ≤ e) (hraw : c * e < SIZE_MOD)
    (hq : queue_create cb hdr c e = some q)
    (hops : ∀ op, op ∈ ops → op.is_queueing = true ∧ op.fits e) :
    (queue_run q ops).2.2 <+: (queue_run q ops).2.1 := by
  obtain ⟨hinv, _, hesz⟩ := queue_create_inv cb hdr c e q hcb hc he hraw hq
  obtain ⟨p', _, h2, _, _⟩ := queue_run_fifo ops q [] e hinv hesz (fun op h => (hops op h).2)
    (fun op h => by
      have := (hops op h).1
      cases op <;> simp_all [QOp.is_queueing, QOp.is_flush])
  rw [List.nil_append] at h2
  exact ⟨p', h2.symm⟩

/-- Witness of `queue_fifo`: the scenario of the specification, restricted to
its enqueue and dequeue calls, on a queue of three one-byte elements. -/
theorem queue_fifo_witness :
    (queue_run fresh_3_1 scenario_ops).2.2 <+: (queue_run fresh_3_1 scenario_ops).2.1 :=
  queue_fifo test_cb 48 3 1 fresh_3_1 scenario_ops test_cb_sized (by decide) (by decide)
    (by decide) (by decide) (by simp [scenario_ops, QOp.is_queueing, QOp.fits])

/-- C2: in a state with `size() == capacity`, `queue_enqueue` returns false and
the queue afterwards is the queue before: size, write index, read index and
the buffer are unchanged. -/
theorem queue_enqueue_full_unchanged (q : Queue_t) (x : List Nat)
    (h : queue_size q = q.capacity) :
    (queue_enqueue q x).1 = false ∧ (queue_enqueue q x).2 = q
      ∧ (queue_enqueue q x).2.size = q.size ∧ (queue_enqueue q x).2.write = q.write
      ∧ (queue_enqueue q x).2.read = q.read ∧ (queue_enqueue q x).2.data = q.data := by
  rw [queue_enqueue_full q x h]
  exact ⟨rfl, rfl, rfl, rfl, rfl, rfl⟩

/-- Witness of `queue_enqueue_full_unchanged`: a full queue of three one-byte
elements refuses a fourth. -/
theorem queue_enqueue_full_unchanged_witness :
    (queue_enqueue (queue_run fresh_3_1 [.enq [97], .enq [98], .enq [99]]).1 [100]).1 = false
      ∧ (queue_enqueue (queue_run fresh_3_1 [.enq [97], .enq [98], .enq [99]]).1 [100]).2
          = (queue_run fresh_3_1 [.enq [97], .enq [98], .enq [99]]).1 :=
  have h := queue_enqueue_full_unchanged
    (queue_run fresh_3_1 [.enq [97], .enq [98], .enq [99]]).1 [100] (by decide)
  ⟨h.1, h.2.1⟩

/-- C3: in a state with `size() == 0`, `queue_denqueue` and `queue_peek` both
return false; the queue and the caller's buffer are as before. -/
theorem queue_underflow_unchanged (q : Queue_t) (out : List Nat) (h : queue_size q = 0) :
    queue_denqueue q out = (false, q, out) ∧ queue_peek q out = (false, out) := by
  have h0 : q.size = 0 := h
  refine ⟨queue_denqueue_empty q out h0, ?_⟩
  unfold queue_peek queue_is_empty
  rw [if_pos h0]
  rfl

/-- Witness of `queue_underflow_unchanged`: a fresh queue. -/
theorem queue_underflow_unchanged_witness :
    queue_denqueue fresh_3_1 [7] = (false, fresh_3_1, [7])
      ∧ queue_peek fresh_3_1 [7] = (false, [7]) :=
  queue_underflow_unchanged fresh_3_1 [7] (by decide)

/-- C4: starting from a freshly created queue, after any sequence of calls
without `queue_flush` (failed calls, peeks and finds allowed) in which `n`
enqueues and `m` dequeues succeeded, `queue_size` returns `n - m`, with
`m <= n` and `n - m <= capacity`. -/
theorem queue_size_accounting (cb : MemCallbacks) (hdr c e : Nat) (q : Queue_t)
    (ops : List QOp) (hc : c < SIZE_MOD) (hq : queue_create cb hdr c e = some q)
    (hnf : ∀ op, op ∈ ops → op.is_flush = false) :
    queue_size (queue_run q ops).1
        = (queue_run q ops).2.1.length - (queue_run q ops).2.2.length
      ∧ (queue_run q ops).2.2.length ≤ (queue_run q ops).2.1.length
      ∧ (queue_run q ops).2.1.length - (queue_run q ops).2.2.length ≤ c := by
  obtain ⟨h0, hcap, _, _, _⟩ := queue_create_fields cb hdr c e q hq
  obtain ⟨k1, k2⟩ := queue_run_size ops q (by rw [h0]; exact Nat.zero_le _)
    (by rw [hcap]; exact hc) hnf
  rw [h0, Nat.zero_add] at k1
  rw [hcap] at k2
  unfold queue_size
  omega

/-- Witness of `queue_size_accounting`: the scenario of the specification. -/
theorem queue_size_accounting_witness :
    queue_size (queue_run fresh_3_1 scenario_ops).1
        = (queue_run fresh_3_1 scenario_ops).2.1.length
          - (queue_run fresh_3_1 scenario_ops).2.2.length
      ∧ (queue_run fresh_3_1 scenario_ops).2.2.length
          ≤ (queue_run fresh_3_1 scenario_ops).2.1.length
      ∧ (queue_run fresh_3_1 scenario_ops).2.1.length
          - (queue_run fresh_3_1 scenario_ops).2.2.length ≤ 3 :=
  queue_size_accounting test_cb 48 3 1 fresh_3_1 scenario_ops (by decide) (by decide)
    (by simp [scenario_ops, QOp.is_flush])

/-- C5 (as stated, refuted): with capacity `6148914691236517207` and element
size `3` the byte size of the buffer wraps to `5` in `size_t`.  After enqueue
`[1,2,3]`, dequeue, enqueue `[4,5,6]` the queue holds one element at read
index `3`: the second element straddles the end of the five-byte buffer.
`queue_denqueue` wraps and returns `[4,5,6]`; `queue_peek` does not wrap, its
third load is at offset `5`, outside the buffer, and it does not deliver the
bytes dequeue delivers. -/
theorem queue_peek_counterexample :
    (queue_create test_cb 48 6148914691236517207 3).map
        (fun q => (queue_run q [QOp.enq [1, 2, 3], QOp.deq [0, 0, 0], QOp.enq [4, 5, 6]]).1)
      = some { data := [6, 2, 3, 4, 5], write := 1, read := 3, size := 1,
               capacity := 6148914691236517207, esize := 3 }
    ∧ queue_peek { data := [6, 2, 3, 4, 5], write := 1, read := 3, size := 1,
                   capacity := 6148914691236517207, esize := 3 } [0, 0, 0]
        = (true, [4, 5, 0])
    ∧ (queue_denqueue { data := [6, 2, 3, 4, 5], write := 1, read := 3, size := 1,
                        capacity := 6148914691236517207, esize := 3 } [0, 0, 0]).2.2
        = [4, 5, 6] := by
  decide

/-- C5 (amended): for capacity >= 1 and element size >= 1 whose byte size
`capacity * esize` does not overflow `size_t`, in every non-empty state
reached from `queue_create` by enqueue / dequeue / peek / find / flush calls
on element-sized buffers, `queue_peek` succeeds and writes exactly the bytes
that `queue_denqueue` writes in the same state, and the dequeue decrements
`size()` by one (`queue_peek` takes the queue `const`: it has no queue
result). -/
theorem queue_peek_agrees (cb : MemCallbacks) (hdr c e : Nat) (q : Queue_t) (ops : List QOp)
    (out1 out2 : List Nat)
    (hcb : alloc_sized cb) (hc : 1 ≤ c) (he : 1 ≤ e) (hraw : c * e < SIZE_MOD)
    (hq : queue_create cb hdr c e = some q) (hfit : ∀ op, op ∈ ops → op.fits e)
    (hne : queue_size (queue_run q ops).1 ≠ 0)
    (ho1 : out1.length = e) (ho2 : out2.length = e) :
    (queue_peek (queue_run q ops).1 out1).1 = true
      ∧ (queue_denqueue (queue_run q ops).1 out2).1 = true
      ∧ (queue_peek (queue_run q ops).1 out1).2 = (queue_denqueue (queue_run q ops).1 out2).2.2
      ∧ queue_size (queue_denqueue (queue_run q ops).1 out2).2.1 + 1
          = queue_size (queue_run q ops).1 := by
  obtain ⟨hinv, _, hesz⟩ := queue_create_inv cb hdr c e q hcb hc he hraw hq
  obtain ⟨p', h1, _, h3⟩ := queue_run_inv ops q [] e hinv hesz hfit
  generalize (queue_run q ops).1 = s at *
  have hs : s.esize = e := by rw [h3, hesz]
  cases p' with
  | nil => exact absurd h1.size_eq hne
  | cons x p =>
    obtain ⟨k1, k2, k3, _, _⟩ := queue_denqueue_inv s x p out2 h1 (by rw [hs, ho2])
    have k4 := queue_peek_inv s x p out1 h1 (by rw [hs, ho1])
    refine ⟨by rw [k4], k1, by rw [k4, k2], ?_⟩
    have a1 : (queue_denqueue s out2).2.1.size = p.length := k3.size_eq
    have a2 : s.size = p.length + 1 := h1.size_eq
    unfold queue_size
    omega

/-- Witness of `queue_peek_agrees`: the scenario of the specification up to
the second enqueue of `d`; peek and dequeue both deliver `b`. -/
theorem queue_peek_agrees_witness :
    (queue_peek (queue_run fresh_3_1 (scenario_ops.take 6)).1 [0]).2 = [98]
      ∧ (queue_peek (queue_run fresh_3_1 (scenario_ops.take 6)).1 [0]).2
          = (queue_denqueue (queue_run fresh_3_1 (scenario_ops.take 6)).1 [1]).2.2 :=
  have h := queue_peek_agrees test_cb 48 3 1 fresh_3_1 (scenario_ops.take 6) [0] [1]
    test_cb_sized (by decide) (by decide) (by decide) (by decide)
    (by simp [scenario_ops, QOp.fits]) (by decide) rfl rfl
  ⟨by decide, h.2.2.1⟩

/-- C7: for every queue state (a buffer of `rawSize = capacity * esize` bytes,
the product in `size_t`), after `queue_flush` the write index, the read index
and the size are `0`, every byte of the buffer is `0`, `queue_size` returns
`0` and `queue_is_empty` returns true; capacity and element size are
unchanged. -/
theorem queue_flush_resets (q : Queue_t)
    (hlen : q.data.length = sz_mul q.capacity q.esize) :
    (queue_flush q).write = 0 ∧ (queue_flush q).read = 0 ∧ (queue_flush q).size = 0
      ∧ (queue_flush q).data = List.replicate (sz_mul q.capacity q.esize) 0
      ∧ queue_size (queue_flush q) = 0 ∧ queue_is_empty (queue_flush q) = true
      ∧ (queue_flush q).capacity = q.capacity ∧ (queue_flush q).esize = q.esize := by
  refine ⟨rfl, rfl, rfl, ?_, rfl, rfl, rfl, rfl⟩
  show zero_fill (sz_mul q.capacity q.esize) 0 q.data = _
  rw [← hlen]
  exact zero_fill_all q.data

/-- Witness of `queue_flush_resets`: a queue of three one-byte elements holding
two of them. -/
theorem queue_flush_resets_witness :
    (queue_flush { data := [100, 98, 99], write := 1, read := 2, size := 2, capacity := 3,
                   esize := 1 }).data = [0, 0, 0] :=
  (queue_flush_resets { data := [100, 98, 99], write := 1, read := 2, size := 2,
                        capacity := 3, esize := 1 } (by decide)).2.2.2.1

/-! ## uqueue.c: the copy loops -/

theorem uenqueue_loop_eq (c : Nat) (p : List Nat) (n i : Nat) (data : List Nat)
    (size w : Nat) (hs : size < SIZE_MOD) :
    uenqueue_loop c p n i data size w
      = ((enqueue_loop c p n i data w).1, (size + n) % SIZE_MOD,
          (enqueue_loop c p n i data w).2) := by
  induction n generalizing i data size w with
  | zero => simp [uenqueue_loop, enqueue_loop, Nat.mod_eq_of_lt hs]
  | succ n ih =>
    have hlt : sz_add size 1 < SIZE_MOD := Nat.mod_lt _ (by unfold SIZE_MOD; omega)
    rw [uenqueue_loop, enqueue_loop, ih _ _ (sz_add size 1) _ hlt]
    unfold sz_add
    rw [Nat.mod_add_mod, Nat.add_assoc, Nat.add_comm 1 n]

theorem udenqueue_loop_out (c : Nat) (data : List Nat) (n i : Nat) (p : List Nat)
    (size r : Nat) :
    (udenqueue_loop c data n i p size r).1 = (denqueue_loop c data n i p r).1
      ∧ (udenqueue_loop c data n i p size r).2.2 = (denqueue_loop c data n i p r).2 := by
  induction n generalizing i p size r with
  | zero => exact ⟨rfl, rfl⟩
  | succ n ih => rw [udenqueue_loop, denqueue_loop]; exact ih _ _ _ _

theorem udenqueue_loop_size (c : Nat) (data : List Nat) (n i : Nat) (p : List Nat)
    (size r : Nat) (hn : n ≤ size) (hs : size < SIZE_MOD) :
    (udenqueue_loop c data n i p size r).2.1 = size - n := by
  induction n generalizing i p size r with
  | zero => rfl
  | succ n ih =>
    rw [udenqueue_loop, sz_sub_eq size 1 (by omega) hs, ih _ _ _ _ (by omega) (by omega)]
    omega

/-! ## uqueue.c: the representation invariant -/

theorem zero_fill_length (n i : Nat) (data : List Nat) :
    (zero_fill n i data).length = data.length := by
  induction n generalizing i data with
  | zero => rfl
  | succ n ih => rw [zero_fill, ih, List.length_set]

theorem mul_add_one_ge (c e : Nat) (hc : 1 ≤ c) (he : 1 ≤ e) : c + e ≤ c * e + 1 := by
  obtain ⟨a, rfl⟩ : ∃ a, c = a + 1 := ⟨c - 1, by omega⟩
  obtain ⟨b, rfl⟩ : ∃ b, e = b + 1 := ⟨e - 1, by omega⟩
  have : (a + 1) * (b + 1) = a * b + a + b + 1 := by ring
  omega

theorem UInv.ring_lt {q : UQueue_t} {p : List (List Nat)} (h : UInv q p) :
    q.capacity < SIZE_MOD := by
  have h1 := h.sum_le
  have h2 := h.esize_pos
  omega

theorem UInv.room_lt {q : UQueue_t} {p : List (List Nat)} (h : UInv q p)
    (hne : q.size ≠ q.capacity) : q.size + q.esize < SIZE_MOD := by
  have h1 := h.sum_le
  have h2 := h.size_le
  omega

theorem uqueue_is_full_iff (q : UQueue_t) (p : List (List Nat)) (h : UInv q p) :
    uqueue_is_full q = false ↔ q.size + q.esize ≤ q.capacity := by
  unfold uqueue_is_full
  by_cases hne : q.size = q.capacity
  · rw [if_pos hne]
    have := h.esize_pos
    constructor
    · intro hh; cases hh
    · intro hh; omega
  · rw [if_neg hne, sz_add_eq _ _ (h.room_lt hne)]
    by_cases hr : q.size + q.esize > q.capacity
    · rw [if_pos hr]
      constructor
      · intro hh; cases hh
      · intro hh; omega
    · rw [if_neg hr]
      constructor
      · intro _; omega
      · intro _; rfl

theorem uqueue_create_fields (cb : MemCallbacks) (hdr c e : Nat)
    (cmp : Option (List Nat → List Nat → Bool)) (q : UQueue_t)
    (hq : uqueue_create cb hdr c e cmp = some q) :
    q.size = 0 ∧ q.read = 0 ∧ q.write = 0 ∧ q.capacity = c ∧ q.esize = e
      ∧ q.compare_cb.isSome = true ∧ cb.registered := by
  unfold uqueue_create at hq
  split at hq
  · cases hq
  · split at hq
    · cases hq
    · rename_i hreg
      split at hq
      · cases hq
      · split at hq
        · cases hq
        · split at hq
          · cases hq
          · injection hq with hq
            subst hq
            refine ⟨rfl, rfl, rfl, rfl, rfl, rfl, ?_⟩
            unfold MemCallbacks.registered
            cases h1 : cb.mem_free_fn <;> cases h2 : cb.mem_alloc_fn <;> simp_all

theorem uqueue_create_ring (cb : MemCallbacks) (hdr c e : Nat)
    (cmp : Option (List Nat → List Nat → Bool)) (q : UQueue_t)
    (hcb : alloc_sized cb) (hc : 1 ≤ c) (he : 1 ≤ e) (hsum : c + e ≤ SIZE_MOD)
    (hfit : c ≤ sz_mul c e) (hq : uqueue_create cb hdr c e cmp = some q) :
    UInv q [] ∧ q.capacity = c ∧ q.esize = e ∧ q.compare_cb = cmp ∧ cb.registered
      ∧ q.read = 0 ∧ q.write = 0 ∧ q.size = 0 := by
  unfold uqueue_create at hq
  split at hq
  · cases hq
  · rename_i f
    split at hq
    · cases hq
    · rename_i hreg
      split at hq
      · cases hq
      · rename_i alloc halloc
        split at hq
        · cases hq
        · split at hq
          · cases hq
          · rename_i blk hblk
            have hlen : blk.length = sz_mul c e := hcb alloc halloc 1 _ blk hblk
            injection hq with hq
            subst hq
            refine ⟨⟨he, hsum, ?_, ?_, Nat.zero_le _, ?_, hc, ?_, ?_, rfl⟩,
              rfl, rfl, rfl, ?_, rfl, rfl, rfl⟩
            · show c ≤ (zero_fill c 0 blk).length
              rw [zero_fill_length, hlen]; exact hfit
            · simp
            · intro x hx; cases hx
            · simp
            · simp [ring_bytes]
            · unfold MemCallbacks.registered
              cases h1 : cb.mem_free_fn <;> cases h2 : cb.mem_alloc_fn <;> simp_all

theorem uqueue_create_inv (cb : MemCallbacks) (hdr c e : Nat)
    (cmp : Option (List Nat → List Nat → Bool)) (q : UQueue_t)
    (hcb : alloc_sized cb) (hc : 1 ≤ c) (he : 1 ≤ e) (hraw : c * e < SIZE_MOD)
    (hq : uqueue_create cb hdr c e cmp = some q) :
    UInv q [] ∧ q.capacity = c ∧ q.esize = e ∧ q.compare_cb = cmp ∧ cb.registered
      ∧ q.read = 0 ∧ q.write = 0 ∧ q.size = 0 := by
  have h1 := mul_add_one_ge c e hc he
  have h2 : c * 1 ≤ c * e := Nat.mul_le_mul_left _ he
  exact uqueue_create_ring cb hdr c e cmp q hcb hc he (by omega)
    (by rw [sz_mul_eq c e hraw]; omega) hq

theorem uqueue_enqueue_unfold (cb : MemCallbacks) (q : UQueue_t) (x : List Nat)
    (cmp : List Nat → List Nat → Bool) (hreg : cb.registered) (hcmp : q.compare_cb = some cmp) :
    uqueue_enqueue cb q x
      = if uqueue_is_full q then (false, q)
        else if uqueue_scan q cmp x (uqueue_size q) 0 then (true, q)
        else (true, { q with
          data := (uenqueue_loop q.capacity x q.esize 0 q.data q.size q.write).1,
          size := (uenqueue_loop q.capacity x q.esize 0 q.data q.size q.write).2.1,
          write := (uenqueue_loop q.capacity x q.esize 0 q.data q.size q.write).2.2 }) := by
  obtain ⟨h1, h2⟩ := hreg
  unfold uqueue_enqueue
  rw [hcmp]
  cases hf : cb.mem_free_fn with
  | none => rw [hf] at h1; cases h1
  | some u =>
    cases ha : cb.mem_alloc_fn with
    | none => rw [ha] at h2; cases h2
    | some a => simp

theorem uqueue_enqueue_store (cb : MemCallbacks) (q : UQueue_t) (p : List (List Nat))
    (x : List Nat) (cmp : List Nat → List Nat → Bool) (h : UInv q p) (hreg : cb.registered)
    (hcmp : q.compare_cb = some cmp) (hx : x.length = q.esize)
    (hroom : q.size + q.esize ≤ q.capacity)
    (hscan : uqueue_scan q cmp x (uqueue_size q) 0 = false) :
    (uqueue_enqueue cb q x).1 = true ∧ UInv (uqueue_enqueue cb q x).2 (p ++ [x])
      ∧ (uqueue_enqueue cb q x).2.size = q.size + q.esize
      ∧ (uqueue_enqueue cb q x).2.capacity = q.capacity
      ∧ (uqueue_enqueue cb q x).2.esize = q.esize
      ∧ (uqueue_enqueue cb q x).2.compare_cb = q.compare_cb
      ∧ (uqueue_enqueue cb q x).2.read = q.read := by
  have hcap := h.ring_lt
  have hle := h.size_le
  rw [uqueue_enqueue_unfold cb q x cmp hreg hcmp, (uqueue_is_full_iff q p h).2 hroom, hscan]
  simp only [Bool.false_eq_true, if_false,
    uenqueue_loop_eq q.capacity x q.esize 0 q.data q.size q.write (by omega),
    Nat.mod_eq_of_lt (by omega : q.size + q.esize < SIZE_MOD)]
  refine ⟨trivial, ⟨h.esize_pos, h.sum_le, ?_, ?_, hroom, ?_, h.read_lt, ?_, ?_, h.cmp_some⟩,
    trivial, trivial, trivial, trivial, trivial⟩
  · show q.capacity ≤ (enqueue_loop _ x q.esize 0 q.data q.write).1.length
    rw [enqueue_loop_length]; exact h.data_len
  · show q.size + q.esize = (p ++ [x]).length * q.esize
    rw [List.length_append, h.size_eq, Nat.add_mul]; simp
  · intro y hy
    rw [List.mem_append, List.mem_singleton] at hy
    rcases hy with hy | hy
    · exact h.elem_len y hy
    · rw [hy]; exact hx
  · show (enqueue_loop _ x q.esize 0 q.data q.write).2 = _
    rw [h.write_eq, enqueue_loop_write _ _ hcap _ _ _ _ (Nat.mod_lt _ (by
      have := h.read_lt; omega)), Nat.mod_add_mod, Nat.add_assoc]
  · show ring_bytes (enqueue_loop _ x q.esize 0 q.data q.write).1 _ q.read
      (q.size + q.esize) = _
    rw [h.write_eq,
      enqueue_loop_stream _ x hcap q.esize 0 q.data q.read _ h.read_lt h.data_len hroom,
      h.stream, ← hx, range_map_getD]
    simp

theorem uqueue_enqueue_same (cb : MemCallbacks) (q : UQueue_t) (p : List (List Nat))
    (x : List Nat) (cmp : List Nat → List Nat → Bool) (h : UInv q p) (hreg : cb.registered)
    (hcmp : q.compare_cb = some cmp)
    (hno : ¬ (q.size + q.esize ≤ q.capacity) ∨ uqueue_scan q cmp x (uqueue_size q) 0 = true) :
    (uqueue_enqueue cb q x).2 = q := by
  rw [uqueue_enqueue_unfold cb q x cmp hreg hcmp]
  by_cases hf : uqueue_is_full q = true
  · rw [if_pos hf]
  · rw [if_neg hf]
    rcases hno with hno | hno
    · exact absurd ((uqueue_is_full_iff q p h).1 (by simpa using hf)) hno
    · rw [if_pos hno]

theorem UInv.oldest_bytes {q : UQueue_t} {x : List Nat} {p : List (List Nat)}
    (h : UInv q (x :: p)) :
    ring_bytes q.data q.capacity q.read q.esize = x
      ∧ ring_bytes q.data q.capacity ((q.read + q.esize) % q.capacity)
          (p.length * q.esize) = p.flatten := by
  have hs := h.stream
  have hxl : x.length = q.esize := h.elem_len x (List.mem_cons_self _ _)
  rw [h.size_eq, List.length_cons, Nat.add_mul, Nat.one_mul, Nat.add_comm, ring_bytes_add,
    List.flatten_cons] at hs
  exact List.append_inj hs (by rw [ring_bytes_length, hxl])

theorem uqueue_denqueue_unfold (cb : MemCallbacks) (q : UQueue_t) (out : List Nat)
    (hreg : cb.registered) (hcmp : q.compare_cb.isSome = true) :
    uqueue_denqueue cb q out
      = if uqueue_is_empty q then (false, q, out)
        else (true, { q with
          size := (udenqueue_loop q.capacity q.data q.esize 0 out q.size q.read).2.1,
          read := (udenqueue_loop q.capacity q.data q.esize 0 out q.size q.read).2.2 },
          (udenqueue_loop q.capacity q.data q.esize 0 out q.size q.read).1) := by
  obtain ⟨h1, h2⟩ := hreg
  unfold uqueue_denqueue
  cases hc : q.compare_cb with
  | none => rw [hc] at hcmp; cases hcmp
  | some cmp =>
    cases hf : cb.mem_free_fn with
    | none => rw [hf] at h1; cases h1
    | some u =>
      cases ha : cb.mem_alloc_fn with
      | none => rw [ha] at h2; cases h2
      | some a => simp

theorem uqueue_denqueue_empty (cb : MemCallbacks) (q : UQueue_t) (out : List Nat)
    (hreg : cb.registered) (h : UInv q []) :
    uqueue_denqueue cb q out = (false, q, out) := by
  have hs : q.size = 0 := by have := h.size_eq; simpa using this
  rw [uqueue_denqueue_unfold cb q out hreg h.cmp_some]
  unfold uqueue_is_empty
  rw [if_pos hs]
  rfl

theorem uqueue_denqueue_inv (cb : MemCallbacks) (q : UQueue_t) (x : List Nat)
    (p : List (List Nat)) (out : List Nat) (hreg : cb.registered) (h : UInv q (x :: p))
    (hout : out.length = q.esize) :
    (uqueue_denqueue cb q out).1 = true ∧ (uqueue_denqueue cb q out).2.2 = x
      ∧ UInv (uqueue_denqueue cb q out).2.1 p
      ∧ (uqueue_denqueue cb q out).2.1.capacity = q.capacity
      ∧ (uqueue_denqueue cb q out).2.1.esize = q.esize
      ∧ (uqueue_denqueue cb q out).2.1.compare_cb = q.compare_cb := by
  have hsz : q.size = p.length * q.esize + q.esize := by
    rw [h.size_eq, List.length_cons, Nat.add_mul, Nat.one_mul]
  have hcap := h.ring_lt
  have hle := h.size_le
  have hpos := h.esize_pos
  have hrd := h.read_lt
  obtain ⟨hhead, htail⟩ := h.oldest_bytes
  have hne : uqueue_is_empty q = false := by
    unfold uqueue_is_empty
    rw [if_neg (by omega), sz_sub_eq _ _ hle hcap, if_neg (by omega)]
  rw [uqueue_denqueue_unfold cb q out hreg h.cmp_some, hne]
  simp only [Bool.false_eq_true, if_false]
  obtain ⟨ho, hr⟩ := udenqueue_loop_out q.capacity q.data q.esize 0 out q.size q.read
  have hs := udenqueue_loop_size q.capacity q.data q.esize 0 out q.size q.read
    (by omega) (by omega)
  have hread : (denqueue_loop q.capacity q.data q.esize 0 out q.read).2
      = (q.read + q.esize) % q.capacity := denqueue_loop_read _ _ hcap _ _ _ _ hrd
  rw [ho, hr, hs, hread]
  refine ⟨trivial, ?_, ⟨hpos, h.sum_le, h.data_len, ?_, ?_, ?_, ?_, ?_, ?_, h.cmp_some⟩,
    trivial, trivial, trivial⟩
  · show (denqueue_loop _ q.data q.esize 0 out q.read).1 = x
    rw [denqueue_loop_out _ _ hcap _ _ _ _ hrd (by omega), hhead]
    simp [← hout]
  · show q.size - q.esize = p.length * q.esize
    omega
  · show q.size - q.esize ≤ q.capacity
    omega
  · intro y hy
    exact h.elem_len y (List.mem_cons_of_mem _ hy)
  · exact Nat.mod_lt _ (by omega)
  · show q.write = ((q.read + q.esize) % q.capacity + (q.size - q.esize)) % q.capacity
    rw [h.write_eq, Nat.mod_add_mod]
    congr 1
    omega
  · show ring_bytes q.data _ ((q.read + q.esize) % q.capacity) (q.size - q.esize) = p.flatten
    rw [hsz, Nat.add_sub_cancel]
    exact htail

/-! ## Runs of calls on the unique queue -/

theorem uqueue_run_fifo (cb : MemCallbacks) (ops : List UOp) (q : UQueue_t)
    (p : List (List Nat)) (e : Nat) (hreg : cb.registered) (h : UInv q p) (he : q.esize = e)
    (hfit : ∀ op, op ∈ ops → op.buf.length = e) :
    ∃ p', UInv (uqueue_run cb q ops).1 p'
      ∧ p ++ (uqueue_run cb q ops).2.1 = (uqueue_run cb q ops).2.2 ++ p'
      ∧ (uqueue_run cb q ops).1.capacity = q.capacity
      ∧ (uqueue_run cb q ops).1.esize = q.esize := by
  induction ops generalizing q p with
  | nil => exact ⟨p, h, by simp [uqueue_run], rfl, rfl⟩
  | cons op ops ih =>
    have hfit' : ∀ op, op ∈ ops → op.buf.length = e :=
      fun o ho => hfit o (List.mem_cons_of_mem _ ho)
    have hop := hfit op (List.mem_cons_self _ _)
    cases op with
    | enq x =>
      have hx : x.length = q.esize := by rw [he]; exact hop
      obtain ⟨cmp, hcmp⟩ := Option.isSome_iff_exists.1 h.cmp_some
      by_cases hst : q.size + q.esize ≤ q.capacity ∧ uqueue_scan q cmp x (uqueue_size q) 0 = false
      · obtain ⟨k1, k2, k3, k4, k5, _, _⟩ :=
          uqueue_enqueue_store cb q p x cmp h hreg hcmp hx hst.1 hst.2
        obtain ⟨p', h1, h2, h3, h4⟩ := ih _ _ k2 (by rw [k5, he]) hfit'
        have hpos := h.esize_pos
        have hflag : ((uqueue_enqueue cb q x).1
            && !decide ((uqueue_enqueue cb q x).2.size = q.size)) = true := by
          rw [k1, k3]; simp; omega
        refine ⟨p', ?_⟩
        simp only [uqueue_run, hflag, if_true]
        refine ⟨h1, ?_, by rw [h3, k4], by rw [h4, k5]⟩
        rw [← h2]; simp
      · have hsame : (uqueue_enqueue cb q x).2 = q := by
          apply uqueue_enqueue_same cb q p x cmp h hreg hcmp
          by_cases hr : q.size + q.esize ≤ q.capacity
          · right
            cases hs : uqueue_scan q cmp x (uqueue_size q) 0
            · exact absurd ⟨hr, hs⟩ hst
            · rfl
          · left; exact hr
        obtain ⟨p', h1, h2, h3, h4⟩ := ih q p h he hfit'
        refine ⟨p', ?_⟩
        simp only [uqueue_run, hsame, decide_True, Bool.not_true, Bool.and_false,
          Bool.false_eq_true, if_false]
        exact ⟨h1, h2, h3, h4⟩
    | deq out =>
      have hout : out.length = q.esize := by rw [he]; exact hop
      cases p with
      | nil =>
        obtain ⟨p', h1, h2, h3, h4⟩ := ih q [] h he hfit'
        refine ⟨p', ?_⟩
        simp only [uqueue_run, uqueue_denqueue_empty cb q out hreg h]
        exact ⟨h1, h2, h3, h4⟩
      | cons x p =>
        obtain ⟨k1, k2, k3, k4, k5, _⟩ := uqueue_denqueue_inv cb q x p out hreg h hout
        obtain ⟨p', h1, h2, h3, h4⟩ := ih _ _ k3 (by rw [k5, he]) hfit'
        refine ⟨p', ?_⟩
        simp only [uqueue_run, k1, if_true, k2]
        refine ⟨h1, ?_, by rw [h3, k4], by rw [h4, k5]⟩
        rw [List.cons_append, h2]; simp

theorem ring_chunks (data : List Nat) (c e : Nat) (p : List (List Nat)) (r : Nat)
    (hr : r < c) (hlen : ∀ x, x ∈ p → x.length = e)
    (hs : ring_bytes data c r (p.length * e) = p.flatten) :
    (List.range p.length).map (fun j => ring_bytes data c ((r + j * e) % c) e) = p := by
  induction p generalizing r with
  | nil => rfl
  | cons x p ih =>
    have hxl : x.length = e := hlen x (List.mem_cons_self _ _)
    rw [List.length_cons, Nat.add_mul, Nat.one_mul, Nat.add_comm, ring_bytes_add,
      List.flatten_cons] at hs
    obtain ⟨h1, h2⟩ := List.append_inj hs (by rw [ring_bytes_length, hxl])
    have h3 := ih ((r + e) % c) (Nat.mod_lt _ (by omega))
      (fun y hy => hlen y (List.mem_cons_of_mem _ hy)) h2
    rw [List.length_cons, List.range_succ_eq_map, List.map_cons, List.map_map]
    congr 1
    · rw [Nat.zero_mul, Nat.add_zero, Nat.mod_eq_of_lt hr]; exact h1
    · refine Eq.trans ?_ h3
      apply List.map_congr_left
      intro j _
      simp only [Function.comp]
      rw [Nat.mod_add_mod]
      congr 2
      rw [Nat.succ_eq_add_one, Nat.add_mul, Nat.one_mul]
      omega

theorem uqueue_contents_eq (q : UQueue_t) (p : List (List Nat)) (h : UInv q p) :
    uqueue_contents q = p := by
  unfold uqueue_contents
  have hd : q.size / q.esize = p.length := by
    rw [h.size_eq]; exact Nat.mul_div_cancel _ h.esize_pos
  rw [hd]
  exact ring_chunks q.data q.capacity q.esize p q.read h.read_lt h.elem_len (by
    rw [← h.size_eq]; exact h.stream)

theorem uqueue_run_refused (cb : MemCallbacks) (ops : List UOp) (q : UQueue_t)
    (hreg : cb.registered) (hcmp : q.compare_cb.isSome = true) (hs : q.size = 0)
    (hc : 1 ≤ q.capacity) (hgt : q.capacity < q.esize) (hlt : q.esize < SIZE_MOD) :
    uqueue_run cb q ops = (q, [], []) := by
  induction ops with
  | nil => rfl
  | cons op ops ih =>
    cases op with
    | enq x =>
      have henq : uqueue_enqueue cb q x = (false, q) := by
        cases hc2 : q.compare_cb with
        | none => rw [hc2] at hcmp; cases hcmp
        | some cmp =>
          rw [uqueue_enqueue_unfold cb q x cmp hreg hc2]
          have hfull : uqueue_is_full q = true := by
            unfold uqueue_is_full
            rw [if_neg (by omega), hs, sz_add_eq 0 q.esize (by omega), Nat.zero_add,
              if_pos hgt]
          rw [hfull]
          rfl
      simp only [uqueue_run, henq, ih, Bool.false_and, Bool.false_eq_true, if_false]
    | deq out =>
      have hdeq : uqueue_denqueue cb q out = (false, q, out) := by
        rw [uqueue_denqueue_unfold cb q out hreg hcmp]
        unfold uqueue_is_empty
        rw [if_pos hs]
        rfl
      simp only [uqueue_run, hdeq, ih, Bool.false_eq_true, if_false]

/-! ## Unique queue: the claims -/

theorem take_drop_eq_map (data : List Nat) (r n : Nat) (h : r + n ≤ data.length) :
    (data.drop r).take n = (List.range n).map (fun j => data.getD (r + j) 0) := by
  apply List.ext_getElem
  · simp; omega
  · intro k h1 h2
    simp only [List.length_map, List.length_range] at h2
    simp only [List.getElem_take, List.getElem_drop, List.getElem_map, List.getElem_range,
      List.getD_eq_getElem?_getD]
    rw [List.getElem?_eq_getElem (by omega)]
    rfl

/-- C8 (as stated, refuted): on a fresh unique queue of capacity `1` and
element size `1` the first `uqueue_enqueue([5])` stores and reports success;
the queue is then full and the second call returns false at the
`uqueue_is_full` guard, which precedes the duplicate scan. -/
theorem uqueue_enqueue_twice_counterexample :
    (uqueue_create test_cb 48 1 1 (some bytes_equal)).map
        (fun q => ((uqueue_enqueue test_cb q [5]).1,
          (uqueue_enqueue test_cb (uqueue_enqueue test_cb q [5]).2 [5]).1))
      = some (true, false)
    ∧ bytes_equal [5] [5] = true := by
  decide

/-- C8 (amended): for every unique queue freshly created with element size
>= 1 and capacity >= 2 * element size (so that the queue is not full after one
element; `capacity * esize` not overflowing `size_t`) and every element `x`
that the predicate judges equal to itself, `uqueue_enqueue(x)` twice makes both
calls report success, the second call leaves the queue as it is, and
afterwards `uqueue_size() == 1`. -/
theorem uqueue_enqueue_twice (cb : MemCallbacks) (hdr c e : Nat)
    (cmp : List Nat → List Nat → Bool) (q : UQueue_t) (x : List Nat)
    (hcb : alloc_sized cb) (he : 1 ≤ e) (h2e : 2 * e ≤ c) (hraw : c * e < SIZE_MOD)
    (hq : uqueue_create cb hdr c e (some cmp) = some q)
    (hx : x.length = e) (hrefl : cmp x x = true) :
    (uqueue_enqueue cb q x).1 = true
      ∧ (uqueue_enqueue cb (uqueue_enqueue cb q x).2 x).1 = true
      ∧ (uqueue_enqueue cb (uqueue_enqueue cb q x).2 x).2 = (uqueue_enqueue cb q x).2
      ∧ uqueue_size (uqueue_enqueue cb q x).2 = 1
      ∧ uqueue_size (uqueue_enqueue cb (uqueue_enqueue cb q x).2 x).2 = 1 := by
  obtain ⟨hinv, hcap, hesz, hcmp, hreg, hread, _, hsize⟩ :=
    uqueue_create_inv cb hdr c e (some cmp) q hcb (by omega) he hraw hq
  have hscan0 : uqueue_scan q cmp x (uqueue_size q) 0 = false := by
    unfold uqueue_size; rw [hsize, Nat.zero_div]; rfl
  obtain ⟨k1, k2, k3, k4, k5, k6, k7⟩ := uqueue_enqueue_store cb q [] x cmp hinv hreg hcmp
    (by rw [hesz, hx]) (by rw [hsize, hcap, hesz]; omega) hscan0
  generalize uqueue_enqueue cb q x = r1 at *
  have hs1 : r1.2.size = e := by rw [k3, hsize, hesz, Nat.zero_add]
  have hsz1 : uqueue_size r1.2 = 1 := by
    unfold uqueue_size; rw [hs1, k5, hesz]; exact Nat.div_self he
  have hslot : (r1.2.data.drop (sz_mul 0 r1.2.esize)).take r1.2.esize = x := by
    have hst := k2.stream
    rw [k7, hread, hs1, k4, hcap, ring_bytes_no_wrap _ _ _ _ (by omega)] at hst
    have hdl := k2.data_len
    rw [k4, hcap] at hdl
    rw [sz_mul_eq 0 _ (by rw [Nat.zero_mul]; unfold SIZE_MOD; omega), Nat.zero_mul, k5, hesz,
      take_drop_eq_map _ _ _ (by omega), hst]
    simp
  have hscan1 : uqueue_scan r1.2 cmp x (uqueue_size r1.2) 0 = true := by
    rw [hsz1, uqueue_scan, hslot, hrefl]; rfl
  have hsame := uqueue_enqueue_same cb r1.2 [x] x cmp k2 hreg (by rw [k6, hcmp]) (Or.inr hscan1)
  have hres : (uqueue_enqueue cb r1.2 x).1 = true := by
    rw [uqueue_enqueue_unfold cb r1.2 x cmp hreg (by rw [k6, hcmp]),
      (uqueue_is_full_iff r1.2 [x] k2).2 (by rw [hs1, k5, k4, hesz, hcap]; omega), hscan1]
    rfl
  exact ⟨k1, hres, hsame, hsz1, by rw [hsame]; exact hsz1⟩

/-- Witness of `uqueue_enqueue_twice`: capacity `2`, one-byte elements, byte
equality. -/
theorem uqueue_enqueue_twice_witness :
    (uqueue_enqueue test_cb (uqueue_enqueue test_cb
        { data := [0, 0], write := 0, read := 0, size := 0, capacity := 2, esize := 1,
          compare_cb := some bytes_equal } [5]).2 [5]).1 = true
      ∧ uqueue_size (uqueue_enqueue test_cb (uqueue_enqueue test_cb
        { data := [0, 0], write := 0, read := 0, size := 0, capacity := 2, esize := 1,
          compare_cb := some bytes_equal } [5]).2 [5]).2 = 1 :=
  have h := uqueue_enqueue_twice test_cb 48 2 1 bytes_equal
    { data := [0, 0], write := 0, read := 0, size := 0, capacity := 2, esize := 1,
      compare_cb := some bytes_equal } [5]
    test_cb_sized (by decide) (by decide) (by decide) rfl rfl (by decide)
  ⟨h.2.1, h.2.2.2.2⟩

/-- C9 (the code at the failing input): capacity `3`, one-byte elements, byte
equality.  After enqueue `1`, enqueue `2`, dequeue, enqueue `2` the queue holds
`2` twice: the duplicate scan of the last enqueue looks at the slot at buffer
offset `0` (the byte `1` already dequeued), not at the stored element at the
read index.  The two following dequeues return `2` and `2`. -/
theorem uqueue_duplicate_stored :
    (uqueue_create test_cb 48 3 1 (some bytes_equal)).map
        (fun q => uqueue_contents
          (uqueue_run test_cb q [UOp.enq [1], UOp.enq [2], UOp.deq [0], UOp.enq [2]]).1)
      = some [[2], [2]]
    ∧ (uqueue_create test_cb 48 3 1 (some bytes_equal)).map
        (fun q => (uqueue_run test_cb q
          [UOp.enq [1], UOp.enq [2], UOp.deq [0], UOp.enq [2], UOp.deq [0], UOp.deq [0]]).2.2)
      = some [[1], [2], [2]] := by
  decide

/-- C10: for every unique queue created with capacity >= 1 and element size
>= 1 (element size not required to divide capacity; capacity and element size
in the range of `size_t` together, `capacity + esize <= 2^64`, so that the
ring and one element fit the address space; where an element fits the ring,
`esize <= capacity`, the storage block that `uqueue_create` requests,
`capacity * esize` in `size_t`, holds the `capacity` bytes that it zero-fills
and that make the ring), and every sequence of `uqueue_enqueue` /
`uqueue_denqueue` calls on element-sized buffers, the buffers filled by the
successful dequeues are, in order, a prefix of the elements that enqueue
stored, and the stored elements not yet dequeued are exactly the contents of
the queue, in order: none was overwritten. -/
theorem uqueue_fifo (cb : MemCallbacks) (hdr c e : Nat) (cmp : List Nat → List Nat → Bool)
    (q : UQueue_t) (ops : List UOp)
    (hcb : alloc_sized cb) (hc : 1 ≤ c) (he : 1 ≤ e) (hsum : c + e ≤ SIZE_MOD)
    (hblk : e ≤ c → c ≤ sz_mul c e)
    (hq : uqueue_create cb hdr c e (some cmp) = some q)
    (hfit : ∀ op, op ∈ ops → op.buf.length = e) :
    (uqueue_run cb q ops).2.2 <+: (uqueue_run cb q ops).2.1
      ∧ (uqueue_run cb q ops).2.1
          = (uqueue_run cb q ops).2.2 ++ uqueue_contents (uqueue_run cb q ops).1 := by
  by_cases hle : e ≤ c
  · obtain ⟨hinv, _, hesz, _, hreg, _, _, _⟩ :=
      uqueue_create_ring cb hdr c e (some cmp) q hcb hc he hsum (hblk hle) hq
    obtain ⟨p', h1, h2, _, _⟩ := uqueue_run_fifo cb ops q [] e hreg hinv hesz hfit
    rw [List.nil_append] at h2
    rw [uqueue_contents_eq _ p' h1]
    exact ⟨⟨p', h2.symm⟩, h2⟩
  · obtain ⟨hs, _, _, hcap, hesz, hcmp, hreg⟩ :=
      uqueue_create_fields cb hdr c e (some cmp) q hq
    rw [uqueue_run_refused cb ops q hreg hcmp hs (by omega) (by omega) (by omega)]
    simp [uqueue_contents, hs]

/-- Witness of `uqueue_fifo`: capacity `5`, two-byte elements; the third and
fourth elements straddle the end of the five-byte ring. -/
theorem uqueue_fifo_witness :
    (uqueue_run test_cb
        { data := [0, 0, 0, 0, 0, 170, 170, 170, 170, 170], write := 0, read := 0, size := 0,
          capacity := 5, esize := 2, compare_cb := some bytes_equal }
        [.enq [1, 2], .enq [3, 4], .deq [0, 0], .enq [5, 6], .deq [0, 0], .enq [7, 8],
         .deq [0, 0]]).2.2
      = [[1, 2], [3, 4], [5, 6]]
    ∧ (uqueue_run test_cb
        { data := [0, 0, 0, 0, 0, 170, 170, 170, 170, 170], write := 0, read := 0, size := 0,
          capacity := 5, esize := 2, compare_cb := some bytes_equal }
        [.enq [1, 2], .enq [3, 4], .deq [0, 0], .enq [5, 6], .deq [0, 0], .enq [7, 8],
         .deq [0, 0]]).2.2
      <+: (uqueue_run test_cb
        { data := [0, 0, 0, 0, 0, 170, 170, 170, 170, 170], write := 0, read := 0, size := 0,
          capacity := 5, esize := 2, compare_cb := some bytes_equal }
        [.enq [1, 2], .enq [3, 4], .deq [0, 0], .enq [5, 6], .deq [0, 0], .enq [7, 8],
         .deq [0, 0]]).2.1 :=
  have h := uqueue_fifo test_cb 48 5 2 bytes_equal
    { data := [0, 0, 0, 0, 0, 170, 170, 170, 170, 170], write := 0, read := 0, size := 0,
      capacity := 5, esize := 2, compare_cb := some bytes_equal }
    [.enq [1, 2], .enq [3, 4], .deq [0, 0], .enq [5, 6], .deq [0, 0], .enq [7, 8],
     .deq [0, 0]]
    test_cb_sized (by decide) (by decide) (by decide) (fun _ => by decide) rfl
    (by simp [UOp.buf])
  ⟨by decide, h.1⟩

/-! ## Unique queue: an enqueue that stores -/

theorem uqueue_enqueue_stores (cb : MemCallbacks) (q : UQueue_t) (x : List Nat)
    (cmp : List Nat → List Nat → Bool) (hreg : cb.registered) (hcmp : q.compare_cb = some cmp)
    (hs : q.size < SIZE_MOD) (hfull : uqueue_is_full q = false)
    (hscan : uqueue_scan q cmp x (uqueue_size q) 0 = false) :
    uqueue_enqueue cb q x
      = (true, { q with
          data := (enqueue_loop q.capacity x q.esize 0 q.data q.write).1,
          size := sz_add q.size q.esize,
          write := (enqueue_loop q.capacity x q.esize 0 q.data q.write).2 }) := by
  rw [uqueue_enqueue_unfold cb q x cmp hreg hcmp, hfull, hscan,
    uenqueue_loop_eq q.capacity x q.esize 0 q.data q.size q.write hs]
  rfl

/-! ## Ring queue: creation and find -/

theorem sz_sub_zero (a : Nat) (ha : a < SIZE_MOD) : sz_sub a 0 = a := by
  rw [sz_sub_eq a 0 (Nat.zero_le _) ha, Nat.sub_zero]

theorem queue_create_zeroed (cb : MemCallbacks) (hdr c e : Nat) (q : Queue_t)
    (hcb : alloc_sized cb) (hq : queue_create cb hdr c e = some q) :
    q.data = List.replicate (sz_mul c e) 0 := by
  unfold queue_create at hq
  dsimp only at hq
  split at hq
  · cases hq
  · split at hq
    · cases hq
    · rename_i alloc halloc
      split at hq
      · cases hq
      · split at hq
        · cases hq
        · rename_i blk hblk
          have hlen : blk.length = sz_mul c e := hcb alloc halloc 1 _ blk hblk
          injection hq with hq
          subst hq
          show zero_fill (sz_mul c e) 0 blk = _
          rw [← hlen]
          exact zero_fill_all blk

/-- C12: `queue_create` (non-static mode) returns no handle when either
callback is unregistered, when the header allocation fails or when the storage
allocation fails; a handle it returns has size `0`, write index `0`, read
index `0`, the requested capacity and element size, `queue_is_empty` true,
`queue_free_space` equal to the capacity, and a storage of
`rawSize = capacity * esize` bytes (the product as the code computes it), all
of them `0`. -/
theorem queue_create_contract (cb : MemCallbacks) (hdr c e : Nat)
    (hc : c < SIZE_MOD) (hcb : alloc_sized cb) :
    ((cb.mem_alloc_fn = none ∨ cb.mem_free_fn = none) → queue_create cb hdr c e = none)
      ∧ (∀ alloc, cb.mem_alloc_fn = some alloc →
          (alloc 0 hdr = none ∨ alloc 1 (sz_mul c e) = none) → queue_create cb hdr c e = none)
      ∧ (∀ q, queue_create cb hdr c e = some q →
          q.size = 0 ∧ q.write = 0 ∧ q.read = 0 ∧ q.capacity = c ∧ q.esize = e
            ∧ queue_size q = 0 ∧ queue_is_empty q = true ∧ queue_free_space q = c
            ∧ q.data = List.replicate (sz_mul c e) 0) := by
  refine ⟨?_, ?_, ?_⟩
  · intro h
    unfold queue_create is_callbacks_valid
    rcases h with h | h <;> simp [h]
  · intro alloc halloc h
    unfold queue_create
    dsimp only
    split
    · rfl
    · rw [halloc]
      rcases h with h | h
      · simp only [h]
      · cases h0 : alloc 0 hdr with
        | none => simp only [h0]
        | some b => simp only [h0, h]
  · intro q hq
    obtain ⟨h1, h2, h3, h4, h5⟩ := queue_create_fields cb hdr c e q hq
    refine ⟨h1, h5, h4, h2, h3, h1, ?_, ?_, ?_⟩
    · unfold queue_is_empty; rw [if_pos h1]
    · unfold queue_free_space; rw [h1, h2]; exact sz_sub_zero c hc
    · exact queue_create_zeroed cb hdr c e q hcb hq

/-- Witness of `queue_create_contract`: the registered test callbacks,
capacity `3`, element size `1`. -/
theorem queue_create_contract_witness :
    queue_create test_cb 48 3 1 = some fresh_3_1
      ∧ queue_free_space fresh_3_1 = 3 ∧ fresh_3_1.data = List.replicate (sz_mul 3 1) 0 :=
  have h := (queue_create_contract test_cb 48 3 1 (by decide) test_cb_sized).2.2
    fresh_3_1 (by decide)
  ⟨by decide, h.2.2.2.2.2.2.2.1, h.2.2.2.2.2.2.2.2⟩

theorem find_loop_iff (q : Queue_t) (needle : List Nat) (is_equal : List Nat → List Nat → Bool)
    (n i : Nat) :
    find_loop q needle is_equal n i = true
      ↔ ∃ k, k < n ∧ is_equal ((q.data.drop (sz_mul (i + k) q.esize)).take q.esize) needle
          = true := by
  induction n generalizing i with
  | zero => simp [find_loop]
  | succ n ih =>
    rw [find_loop]
    constructor
    · intro h
      by_cases h0 : is_equal ((q.data.drop (sz_mul i q.esize)).take q.esize) needle = true
      · exact ⟨0, by omega, by rw [Nat.add_zero]; exact h0⟩
      · rw [if_neg h0] at h
        obtain ⟨k, hk, hm⟩ := (ih (i + 1)).1 h
        refine ⟨k + 1, by omega, ?_⟩
        rw [(by omega : i + (k + 1) = i + 1 + k)]
        exact hm
    · rintro ⟨k, hk, hm⟩
      by_cases h0 : is_equal ((q.data.drop (sz_mul i q.esize)).take q.esize) needle = true
      · rw [if_pos h0]
      · rw [if_neg h0]
        cases k with
        | zero => rw [Nat.add_zero] at hm; exact absurd hm h0
        | succ k =>
          refine (ih (i + 1)).2 ⟨k, by omega, ?_⟩
          rw [(by omega : i + 1 + k = i + (k + 1))]
          exact hm

/-- C13: for every queue state, needle and equality function, `queue_find`
returns true if and only if there is an index `i < size()` such that the
equality function holds of the `esize` bytes at buffer offset `i * esize`
(counted from buffer offset `0`, the product as the code computes it) and the
needle; where `size * esize` does not overflow `size_t` the offset is the
plain product.  `queue_find` takes the queue `const`; it has no queue
result. -/
theorem queue_find_iff (q : Queue_t) (needle : List Nat)
    (is_equal : List Nat → List Nat → Bool) :
    (queue_find q needle is_equal = true
      ↔ ∃ i, i < queue_size q
          ∧ is_equal ((q.data.drop (sz_mul i q.esize)).take q.esize) needle = true)
    ∧ (q.size * q.esize < SIZE_MOD →
        (queue_find q needle is_equal = true
          ↔ ∃ i, i < queue_size q
              ∧ is_equal ((q.data.drop (i * q.esize)).take q.esize) needle = true)) := by
  have h1 : queue_find q needle is_equal = true
      ↔ ∃ i, i < queue_size q
          ∧ is_equal ((q.data.drop (sz_mul i q.esize)).take q.esize) needle = true := by
    unfold queue_find
    rw [find_loop_iff]
    simp only [Nat.zero_add]
  refine ⟨h1, fun hlt => ?_⟩
  rw [h1]
  have hmul : ∀ i, i < queue_size q → sz_mul i q.esize = i * q.esize := by
    intro i hi
    apply sz_mul_eq
    have : i * q.esize ≤ q.size * q.esize := Nat.mul_le_mul_right _ (Nat.le_of_lt hi)
    omega
  constructor
  · rintro ⟨i, hi, hm⟩
    exact ⟨i, hi, by rw [← hmul i hi]; exact hm⟩
  · rintro ⟨i, hi, hm⟩
    exact ⟨i, hi, by rw [hmul i hi]; exact hm⟩

/-! ## Ring queue: the index invariant -/

theorem QInv.to_idx {q : Queue_t} {p : List (List Nat)} (h : QInv q p) : QIdx q :=
  ⟨h.esize_pos, h.raw_lt, h.data_len, h.size_le, h.read_lt, h.read_al, h.write_eq⟩

theorem QIdx.size_t_capacity {q : Queue_t} (h : QIdx q) : q.capacity < SIZE_MOD := by
  have h1 := h.raw_lt
  have h2 : q.capacity * 1 ≤ q.capacity * q.esize := Nat.mul_le_mul_left _ h.esize_pos
  omega

theorem QIdx.write_lt {q : Queue_t} (h : QIdx q) : q.write < q.capacity * q.esize := by
  rw [h.write_eq]
  exact Nat.mod_lt _ (Nat.lt_of_le_of_lt (Nat.zero_le _) h.read_lt)

theorem QIdx.read_span {q : Queue_t} (h : QIdx q) :
    q.read + q.esize ≤ q.capacity * q.esize := by
  obtain ⟨k, hk⟩ := h.read_al
  have h1 := h.read_lt
  rw [hk, Nat.mul_comm q.esize k] at h1
  have h2 : k < q.capacity := Nat.lt_of_mul_lt_mul_right h1
  have h3 : (k + 1) * q.esize ≤ q.capacity * q.esize := Nat.mul_le_mul_right _ h2
  rw [hk, Nat.mul_comm q.esize k]
  rw [Nat.add_mul, Nat.one_mul] at h3
  exact h3

theorem QIdx.write_al {q : Queue_t} (h : QIdx q) : q.esize ∣ q.write := by
  rw [h.write_eq]
  exact (Nat.dvd_mod_iff (Dvd.intro_left _ rfl)).2
    (Nat.dvd_add h.read_al (Dvd.intro_left _ rfl))

theorem queue_enqueue_idx (q : Queue_t) (x : List Nat) (h : QIdx q) :
    QIdx (queue_enqueue q x).2 ∧ (queue_enqueue q x).2.capacity = q.capacity
      ∧ (queue_enqueue q x).2.esize = q.esize := by
  by_cases hnf : q.size = q.capacity
  · rw [queue_enqueue_full q x hnf]; exact ⟨h, rfl, rfl⟩
  · have hlt : q.size < q.capacity := Nat.lt_of_le_of_ne h.size_le hnf
    have hcap := h.size_t_capacity
    unfold queue_enqueue queue_is_full
    rw [if_neg hnf]
    simp only [Bool.false_eq_true, if_false, sz_mul_eq _ _ h.raw_lt,
      sz_add_eq q.size 1 (by omega)]
    refine ⟨⟨h.esize_pos, h.raw_lt, ?_, hlt, h.read_lt, h.read_al, ?_⟩, trivial, trivial⟩
    · show (enqueue_loop _ x q.esize 0 q.data q.write).1.length = _
      rw [enqueue_loop_length]; exact h.data_len
    · show (enqueue_loop _ x q.esize 0 q.data q.write).2 = _
      rw [enqueue_loop_write _ _ h.raw_lt _ _ _ _ h.write_lt, h.write_eq, Nat.mod_add_mod,
        Nat.add_mul, Nat.one_mul, Nat.add_assoc]

theorem queue_denqueue_idx (q : Queue_t) (out : List Nat) (h : QIdx q) :
    QIdx (queue_denqueue q out).2.1 ∧ (queue_denqueue q out).2.1.capacity = q.capacity
      ∧ (queue_denqueue q out).2.1.esize = q.esize := by
  by_cases hemp : q.size = 0
  · rw [queue_denqueue_empty q out hemp]; exact ⟨h, rfl, rfl⟩
  · have hcap := h.size_t_capacity
    have hle := h.size_le
    have hpos : 0 < q.capacity * q.esize := Nat.lt_of_le_of_lt (Nat.zero_le _) h.read_lt
    unfold queue_denqueue queue_is_empty
    rw [if_neg hemp]
    simp only [Bool.false_eq_true, if_false, sz_mul_eq _ _ h.raw_lt,
      sz_sub_eq q.size 1 (by omega) (by omega)]
    have hread : (denqueue_loop (q.capacity * q.esize) q.data q.esize 0 out q.read).2
        = (q.read + q.esize) % (q.capacity * q.esize) :=
      denqueue_loop_read _ _ h.raw_lt _ _ _ _ h.read_lt
    refine ⟨⟨h.esize_pos, h.raw_lt, h.data_len, ?_, ?_, ?_, ?_⟩, trivial, trivial⟩
    · show q.size - 1 ≤ q.capacity
      omega
    · show (denqueue_loop _ q.data q.esize 0 out q.read).2 < _
      rw [hread]; exact Nat.mod_lt _ hpos
    · show q.esize ∣ (denqueue_loop _ q.data q.esize 0 out q.read).2
      rw [hread]
      exact (Nat.dvd_mod_iff (Dvd.intro_left _ rfl)).2 (Nat.dvd_add h.read_al (Nat.dvd_refl _))
    · show q.write = ((denqueue_loop _ q.data q.esize 0 out q.read).2
        + (q.size - 1) * q.esize) % _
      rw [hread, h.write_eq, Nat.mod_add_mod]
      congr 1
      obtain ⟨n, hn⟩ : ∃ n, q.size = n + 1 := ⟨q.size - 1, by omega⟩
      rw [hn, Nat.add_sub_cancel, Nat.add_mul, Nat.one_mul]
      omega

theorem queue_flush_idx (q : Queue_t) (h : QIdx q) :
    QIdx (queue_flush q) ∧ (queue_flush q).capacity = q.capacity
      ∧ (queue_flush q).esize = q.esize := by
  have hpos : 0 < q.capacity * q.esize := Nat.lt_of_le_of_lt (Nat.zero_le _) h.read_lt
  refine ⟨⟨h.esize_pos, h.raw_lt, ?_, Nat.zero_le _, hpos, Nat.dvd_zero _, ?_⟩, rfl, rfl⟩
  · show (zero_fill _ 0 q.data).length = _
    rw [zero_fill_length]; exact h.data_len
  · show (0 : Nat) = (0 + 0 * q.esize) % (q.capacity * q.esize)
    simp

theorem queue_run_idx (ops : List QOp) (q : Queue_t) (h : QIdx q) :
    QIdx (queue_run q ops).1 ∧ (queue_run q ops).1.capacity = q.capacity
      ∧ (queue_run q ops).1.esize = q.esize := by
  induction ops generalizing q with
  | nil => exact ⟨h, rfl, rfl⟩
  | cons op ops ih =>
    cases op with
    | enq x =>
      obtain ⟨k1, k2, k3⟩ := queue_enqueue_idx q x h
      obtain ⟨h1, h2, h3⟩ := ih _ k1
      exact ⟨by simpa only [queue_run] using h1, by simpa only [queue_run, k2] using h2,
        by simpa only [queue_run, k3] using h3⟩
    | deq out =>
      obtain ⟨k1, k2, k3⟩ := queue_denqueue_idx q out h
      obtain ⟨h1, h2, h3⟩ := ih _ k1
      exact ⟨by simpa only [queue_run] using h1, by simpa only [queue_run, k2] using h2,
        by simpa only [queue_run, k3] using h3⟩
    | peek out => simpa only [queue_run] using ih q h
    | find n f => simpa only [queue_run] using ih q h
    | flush =>
      obtain ⟨k1, k2, k3⟩ := queue_flush_idx q h
      obtain ⟨h1, h2, h3⟩ := ih _ k1
      exact ⟨by simpa only [queue_run] using h1, by simpa only [queue_run, k2] using h2,
        by simpa only [queue_run, k3] using h3⟩

/-! ## Ring queue: the offsets the copy loops go through -/

theorem ring_offsets_lt (R : Nat) (hR : R < SIZE_MOD) (n idx : Nat) (hidx : idx < R) :
    ∀ off, off ∈ ring_offsets R n idx → off < R := by
  induction n generalizing idx with
  | zero => intro off h; cases h
  | succ n ih =>
    intro off h
    rw [ring_offsets, List.mem_cons] at h
    rcases h with h | h
    · rw [h]; exact hidx
    · exact ih _ (by rw [next_index_eq R idx hR hidx]; exact Nat.mod_lt _ (by omega)) off h

theorem peek_offsets_lt (n b : Nat) : ∀ off, off ∈ peek_offsets n b → off < b + n := by
  induction n generalizing b with
  | zero => intro off h; cases h
  | succ n ih =>
    intro off h
    rw [peek_offsets, List.mem_cons] at h
    rcases h with h | h
    · omega
    · have := ih (b + 1) off h; omega

/-- The copy loop of `queue_enqueue` stores the caller's bytes at the offsets
of `ring_offsets`, in order. -/
theorem enqueue_loop_stores (R : Nat) (p : List Nat) (n i : Nat) (data : List Nat) (w : Nat) :
    (enqueue_loop R p n i data w).1
      = ((ring_offsets R n w).zip ((List.range n).map (fun k => p.getD (i + k) 0))).foldl
          (fun d ob => d.set ob.1 ob.2) data := by
  induction n generalizing i data w with
  | zero => rfl
  | succ n ih =>
    rw [enqueue_loop, ih, ring_offsets, List.range_succ_eq_map, List.map_cons, List.map_map,
      List.zip_cons_cons, List.foldl_cons, Nat.add_zero]
    congr 2
    apply List.map_congr_left
    intro k _
    simp only [Function.comp, Nat.succ_eq_add_one]
    congr 1
    omega

/-- The copy loop of `queue_denqueue` loads the bytes at the offsets of
`ring_offsets`, in order. -/
theorem denqueue_loop_loads (R : Nat) (data : List Nat) (n i : Nat) (p : List Nat) (r : Nat) :
    (denqueue_loop R data n i p r).1
      = ((List.range n).zip ((ring_offsets R n r).map (fun off => data.getD off 0))).foldl
          (fun d kb => d.set (i + kb.1) kb.2) p := by
  induction n generalizing i p r with
  | zero => rfl
  | succ n ih =>
    rw [denqueue_loop, ih, ring_offsets, List.range_succ_eq_map, List.map_cons,
      List.zip_cons_cons, List.foldl_cons, Nat.add_zero, List.zip_map_left,
      List.foldl_map]
    congr 1
    funext d kb
    simp only [Prod.map_fst, Prod.map_snd, id_eq, Nat.succ_eq_add_one]
    congr 1
    omega

/-- The copy loop of `queue_peek` loads the bytes at the offsets of
`peek_offsets`, in order. -/
theorem peek_loop_loads (data : List Nat) (n i : Nat) (p : List Nat) (b : Nat) :
    peek_loop data n i p b
      = ((List.range n).zip ((peek_offsets n b).map (fun off => data.getD off 0))).foldl
          (fun d kb => d.set (i + kb.1) kb.2) p := by
  induction n generalizing i p b with
  | zero => rfl
  | succ n ih =>
    rw [peek_loop, ih, peek_offsets, List.range_succ_eq_map, List.map_cons,
      List.zip_cons_cons, List.foldl_cons, Nat.add_zero, List.zip_map_left,
      List.foldl_map]
    congr 1
    funext d kb
    simp only [Prod.map_fst, Prod.map_snd, id_eq, Nat.succ_eq_add_one]
    congr 1
    omega

/-! ## Ring queue: bounds, alignment, find on the contents -/

/-- C14: for every queue created with capacity >= 1 and element size >= 1
whose byte size `capacity * esize` does not overflow `size_t`, in every state
reached by enqueue / dequeue / peek / find / flush calls (whatever the
caller's buffers) the write index and the read index are below
`capacity * esize`, the size is at most the capacity, capacity and element
size are the ones of the creation, the buffer has `capacity * esize` bytes,
and every offset at which `queue_enqueue`, `queue_denqueue` or `queue_peek`
accesses the buffer when called in that state is below `capacity * esize`. -/
theorem queue_bounds (cb : MemCallbacks) (hdr c e : Nat) (q : Queue_t) (ops : List QOp)
    (hcb : alloc_sized cb) (hc : 1 ≤ c) (he : 1 ≤ e) (hraw : c * e < SIZE_MOD)
    (hq : queue_create cb hdr c e = some q) :
    (queue_run q ops).1.write < c * e ∧ (queue_run q ops).1.read < c * e
      ∧ (queue_run q ops).1.size ≤ c
      ∧ (queue_run q ops).1.capacity = c ∧ (queue_run q ops).1.esize = e
      ∧ (queue_run q ops).1.data.length = c * e
      ∧ (∀ off, off ∈ queue_enqueue_accesses (queue_run q ops).1 → off < c * e)
      ∧ (∀ off, off ∈ queue_denqueue_accesses (queue_run q ops).1 → off < c * e)
      ∧ (∀ off, off ∈ queue_peek_accesses (queue_run q ops).1 → off < c * e) := by
  obtain ⟨hinv, hcap, hesz⟩ := queue_create_inv cb hdr c e q hcb hc he hraw hq
  obtain ⟨h1, h2, h3⟩ := queue_run_idx ops q hinv.to_idx
  generalize (queue_run q ops).1 = s at *
  have hc' : s.capacity = c := by rw [h2, hcap]
  have he' : s.esize = e := by rw [h3, hesz]
  have hw := h1.write_lt
  have hr := h1.read_lt
  have hsp := h1.read_span
  have hl := h1.data_len
  have hs := h1.size_le
  simp only [hc', he'] at hw hr hsp hl hs
  refine ⟨hw, hr, hs, hc', he', hl, ?_, ?_, ?_⟩
  · intro off hoff
    unfold queue_enqueue_accesses at hoff
    split at hoff
    · cases hoff
    · rw [hc', he', sz_mul_eq c e hraw] at hoff
      exact ring_offsets_lt (c * e) hraw e s.write hw off hoff
  · intro off hoff
    unfold queue_denqueue_accesses at hoff
    split at hoff
    · cases hoff
    · rw [hc', he', sz_mul_eq c e hraw] at hoff
      exact ring_offsets_lt (c * e) hraw e s.read hr off hoff
  · intro off hoff
    unfold queue_peek_accesses at hoff
    split at hoff
    · cases hoff
    · rw [he'] at hoff
      have := peek_offsets_lt e s.read off hoff
      omega

/-- Witness of `queue_bounds`: the scenario of the specification. -/
theorem queue_bounds_witness :
    (queue_run fresh_3_1 scenario_ops).1.write < 3 * 1
      ∧ (queue_run fresh_3_1 scenario_ops).1.read < 3 * 1
      ∧ (queue_run fresh_3_1 scenario_ops).1.size ≤ 3 :=
  have h := queue_bounds test_cb 48 3 1 fresh_3_1 scenario_ops test_cb_sized
    (by decide) (by decide) (by decide) (by decide)
  ⟨h.1, h.2.1, h.2.2.1⟩

/-- C17 (as stated, refuted): with capacity `6148914691236517207` and element
size `3` the byte size of the buffer wraps to `5` in `size_t`.  Two enqueues
succeed, every store inside the five-byte buffer, and leave the write index at
`1`, which is not a multiple of the element size. -/
theorem queue_alignment_counterexample :
    (queue_create test_cb 48 wrap_capacity_3 3).map
        (fun q => (queue_run q [QOp.enq [1, 2, 3], QOp.enq [4, 5, 6]]).1)
      = some { data := [6, 2, 3, 4, 5], write := 1, read := 0, size := 2,
               capacity := wrap_capacity_3, esize := 3 }
    ∧ ¬ (3 ∣ 1) := by
  decide

/-- C17 (amended): for every queue created with capacity >= 1 and element
size >= 1 whose byte size `capacity * esize` does not overflow `size_t`, in
every state reached by enqueue / dequeue / peek / find / flush calls the read
index and the write index are multiples of the element size, the write index
is `(read + size * esize) mod (capacity * esize)`, and
`read + esize <= capacity * esize`: no element straddles the wrap point. -/
theorem queue_alignment (cb : MemCallbacks) (hdr c e : Nat) (q : Queue_t) (ops : List QOp)
    (hcb : alloc_sized cb) (hc : 1 ≤ c) (he : 1 ≤ e) (hraw : c * e < SIZE_MOD)
    (hq : queue_create cb hdr c e = some q) :
    e ∣ (queue_run q ops).1.read ∧ e ∣ (queue_run q ops).1.write
      ∧ (queue_run q ops).1.write
          = ((queue_run q ops).1.read + (queue_run q ops).1.size * e) % (c * e)
      ∧ (queue_run q ops).1.read + e ≤ c * e := by
  obtain ⟨hinv, hcap, hesz⟩ := queue_create_inv cb hdr c e q hcb hc he hraw hq
  obtain ⟨h1, h2, h3⟩ := queue_run_idx ops q hinv.to_idx
  generalize (queue_run q ops).1 = s at *
  have hc' : s.capacity = c := by rw [h2, hcap]
  have he' : s.esize = e := by rw [h3, hesz]
  have a1 := h1.read_al
  have a2 := h1.write_al
  have a3 := h1.write_eq
  have a4 := h1.read_span
  simp only [hc', he'] at a1 a2 a3 a4
  exact ⟨a1, a2, a3, a4⟩

/-- Witness of `queue_alignment`: capacity `2`, two-byte elements, after an
enqueue, a dequeue and an enqueue. -/
theorem queue_alignment_witness :
    (queue_run { data := [0, 0, 0, 0], write := 0, read := 0, size := 0, capacity := 2,
                 esize := 2 }
        [.enq [1, 2], .deq [0, 0], .enq [3, 4]]).1.read = 2
      ∧ 2 ∣ (queue_run { data := [0, 0, 0, 0], write := 0, read := 0, size := 0,
                         capacity := 2, esize := 2 }
              [.enq [1, 2], .deq [0, 0], .enq [3, 4]]).1.write :=
  have h := queue_alignment test_cb 48 2 2
    { data := [0, 0, 0, 0], write := 0, read := 0, size := 0, capacity := 2, esize := 2 }
    [.enq [1, 2], .deq [0, 0], .enq [3, 4]] test_cb_sized
    (by decide) (by decide) (by decide) (by decide)
  ⟨by decide, h.2.1⟩

theorem queue_drain_run (p : List (List Nat)) (q : Queue_t) (e : Nat) (h : QInv q p)
    (he : q.esize = e) :
    (queue_run q (List.replicate p.length (QOp.deq (List.replicate e 0)))).2.2 = p := by
  induction p generalizing q with
  | nil => rfl
  | cons x p ih =>
    obtain ⟨k1, k2, k3, _, k5⟩ := queue_denqueue_inv q x p (List.replicate e 0) h
      (by rw [List.length_replicate, he])
    rw [List.length_cons, List.replicate_succ]
    simp only [queue_run, k1, if_true, k2]
    rw [ih _ k3 (by rw [k5, he])]

theorem queue_drain_eq (q : Queue_t) (p : List (List Nat)) (h : QInv q p) :
    queue_drain q = p := by
  unfold queue_drain queue_size
  rw [h.size_eq]
  exact queue_drain_run p q q.esize h rfl

theorem queue_slots_eq (q : Queue_t) (p : List (List Nat)) (h : QInv q p) (hr : q.read = 0) :
    (List.range p.length).map (fun i => (q.data.drop (i * q.esize)).take q.esize) = p := by
  have hpos : 0 < q.capacity * q.esize := Nat.lt_of_le_of_lt (Nat.zero_le _) h.read_lt
  have hst := h.stream
  rw [hr, h.size_eq] at hst
  have hch := ring_chunks q.data (q.capacity * q.esize) q.esize p 0 hpos h.elem_len hst
  refine Eq.trans ?_ hch
  apply List.map_congr_left
  intro i hi
  rw [List.mem_range] at hi
  have hle : p.length ≤ q.capacity := by rw [← h.size_eq]; exact h.size_le
  have h1 : (i + 1) * q.esize ≤ q.capacity * q.esize :=
    Nat.mul_le_mul_right _ (by omega)
  rw [Nat.add_mul, Nat.one_mul] at h1
  rw [Nat.zero_add, Nat.mod_eq_of_lt (by have := h.esize_pos; omega),
    ring_bytes_no_wrap _ _ _ _ h1, take_drop_eq_map _ _ _ (by rw [h.data_len]; exact h1)]

theorem queue_find_pending (q : Queue_t) (p : List (List Nat)) (needle : List Nat)
    (is_equal : List Nat → List Nat → Bool) (h : QInv q p) (hr : q.read = 0) :
    queue_find q needle is_equal = true ↔ ∃ x, x ∈ p ∧ is_equal x needle = true := by
  have hsl := queue_slots_eq q p h hr
  have hle : p.length ≤ q.capacity := by rw [← h.size_eq]; exact h.size_le
  have hmul : ∀ i, i < p.length → sz_mul i q.esize = i * q.esize := by
    intro i hi
    apply sz_mul_eq
    have h1 : i * q.esize ≤ q.capacity * q.esize := Nat.mul_le_mul_right _ (by omega)
    have := h.raw_lt
    omega
  unfold queue_find queue_size
  rw [find_loop_iff, h.size_eq]
  constructor
  · rintro ⟨k, hk, hm⟩
    rw [Nat.zero_add, hmul k hk] at hm
    refine ⟨(q.data.drop (k * q.esize)).take q.esize, ?_, hm⟩
    rw [← hsl, List.mem_map]
    exact ⟨k, List.mem_range.2 hk, rfl⟩
  · rintro ⟨x, hx, hm⟩
    rw [← hsl, List.mem_map] at hx
    obtain ⟨k, hk, rfl⟩ := hx
    rw [List.mem_range] at hk
    exact ⟨k, hk, by rw [Nat.zero_add, hmul k hk]; exact hm⟩

/-- C15 (as stated, refuted): with capacity `6148914691236517207` and element
size `3` the byte size of the buffer wraps to `5` in `size_t`.  After two
enqueues the read index is `0`, the size is `2`, and the two dequeues that
follow deliver `[6,2,3]` and `[4,5,6]`.  `queue_find` compares the needle with
the slots at offsets `0` and `3`; the slot at offset `3` runs over the end of
the five-byte buffer, and `queue_find` with byte equality does not find
`[4,5,6]`. -/
theorem queue_find_contents_counterexample :
    (queue_create test_cb 48 wrap_capacity_3 3).map
        (fun q => (queue_run q [QOp.enq [1, 2, 3], QOp.enq [4, 5, 6]]).1)
      = some { data := [6, 2, 3, 4, 5], write := 1, read := 0, size := 2,
               capacity := wrap_capacity_3, esize := 3 }
    ∧ queue_drain { data := [6, 2, 3, 4, 5], write := 1, read := 0, size := 2,
                    capacity := wrap_capacity_3, esize := 3 } = [[6, 2, 3], [4, 5, 6]]
    ∧ queue_find { data := [6, 2, 3, 4, 5], write := 1, read := 0, size := 2,
                   capacity := wrap_capacity_3, esize := 3 } [4, 5, 6] bytes_equal = false
    ∧ bytes_equal [4, 5, 6] [4, 5, 6] = true := by
  decide

/-- C15 (amended): for capacity >= 1 and element size >= 1 whose byte size
`capacity * esize` does not overflow `size_t`, in every state with read index
`0` reached from `queue_create` by calls on element-sized buffers,
`queue_find(needle, eq)` returns true if and only if `eq` holds between at
least one of the elements stored in the queue (the elements the following
dequeues deliver) and the needle. -/
theorem queue_find_contents (cb : MemCallbacks) (hdr c e : Nat) (q : Queue_t)
    (ops : List QOp) (needle : List Nat) (is_equal : List Nat → List Nat → Bool)
    (hcb : alloc_sized cb) (hc : 1 ≤ c) (he : 1 ≤ e) (hraw : c * e < SIZE_MOD)
    (hq : queue_create cb hdr c e = some q) (hfit : ∀ op, op ∈ ops → op.fits e)
    (hread : (queue_run q ops).1.read = 0) :
    queue_find (queue_run q ops).1 needle is_equal = true
      ↔ ∃ x, x ∈ queue_drain (queue_run q ops).1 ∧ is_equal x needle = true := by
  obtain ⟨hinv, _, hesz⟩ := queue_create_inv cb hdr c e q hcb hc he hraw hq
  obtain ⟨p', h1, _, _⟩ := queue_run_inv ops q [] e hinv hesz hfit
  rw [queue_drain_eq _ p' h1]
  exact queue_find_pending _ p' needle is_equal h1 hread

/-- Witness of `queue_find_contents`: a queue of three one-byte elements
filled with `a`, `b`, `c`; `b` is found. -/
theorem queue_find_contents_witness :
    queue_find (queue_run fresh_3_1 (scenario_ops.take 3)).1 [98] bytes_equal = true
      ∧ [98] ∈ queue_drain (queue_run fresh_3_1 (scenario_ops.take 3)).1 :=
  have h := queue_find_contents test_cb 48 3 1 fresh_3_1 (scenario_ops.take 3) [98] bytes_equal
    test_cb_sized (by decide) (by decide) (by decide) (by decide)
    (by simp [scenario_ops, QOp.fits]) (by decide)
  ⟨h.2 ⟨[98], by decide, by decide⟩, by decide⟩

/-! ## Unique queue: the duplicate scan against the stored elements -/

/-- C11 (the code at the failing input): capacity `3`, one-byte elements, byte
equality.  After enqueue `1`, enqueue `2`, dequeue, the queue is not full and
holds the single element `2`, at buffer offset `1`; buffer offset `0` still
holds the byte `1`.  `uqueue_enqueue([2])` returns true and stores: the size
goes from `1` to `2` although the stored element matches.
`uqueue_enqueue([1])` returns true and is a no-op although no stored
element matches. -/
theorem uqueue_scan_misses_contents :
    (uqueue_create test_cb 48 3 1 (some bytes_equal)).map
        (fun q =>
          (uqueue_is_full (uqueue_run test_cb q [UOp.enq [1], UOp.enq [2], UOp.deq [0]]).1,
            uqueue_contents (uqueue_run test_cb q [UOp.enq [1], UOp.enq [2], UOp.deq [0]]).1,
            uqueue_size (uqueue_run test_cb q [UOp.enq [1], UOp.enq [2], UOp.deq [0]]).1))
      = some (false, [[2]], 1)
    ∧ (uqueue_create test_cb 48 3 1 (some bytes_equal)).map
        (fun q =>
          ((uqueue_enqueue test_cb
              (uqueue_run test_cb q [UOp.enq [1], UOp.enq [2], UOp.deq [0]]).1 [2]).1,
            uqueue_size (uqueue_enqueue test_cb
              (uqueue_run test_cb q [UOp.enq [1], UOp.enq [2], UOp.deq [0]]).1 [2]).2,
            uqueue_contents (uqueue_enqueue test_cb
              (uqueue_run test_cb q [UOp.enq [1], UOp.enq [2], UOp.deq [0]]).1 [2]).2))
      = some (true, 2, [[2], [2]])
    ∧ (uqueue_create test_cb 48 3 1 (some bytes_equal)).map
        (fun q =>
          ((uqueue_enqueue test_cb
              (uqueue_run test_cb q [UOp.enq [1], UOp.enq [2], UOp.deq [0]]).1 [1]).1,
            uqueue_size (uqueue_enqueue test_cb
              (uqueue_run test_cb q [UOp.enq [1], UOp.enq [2], UOp.deq [0]]).1 [1]).2,
            uqueue_contents (uqueue_enqueue test_cb
              (uqueue_run test_cb q [UOp.enq [1], UOp.enq [2], UOp.deq [0]]).1 [1]).2))
      = some (true, 1, [[2]])
    ∧ bytes_equal [2] [2] = true ∧ bytes_equal [2] [1] = false := by
  decide

/-! ## Unique queue: the index invariant -/

theorem UIdx.size_t_cap {q : UQueue_t} {k : Nat} (h : UIdx q k) : q.capacity < SIZE_MOD := by
  have h1 := h.sum_le
  have h2 := h.esize_pos
  omega

theorem UIdx.no_wrap {q : UQueue_t} {k : Nat} (h : UIdx q k) (hne : q.size ≠ q.capacity) :
    q.size + q.esize < SIZE_MOD := by
  have h1 := h.sum_le
  have h2 := h.size_le
  omega

theorem UIdx.count_le {q : UQueue_t} {k : Nat} (h : UIdx q k) : k ≤ q.capacity := by
  have h1 : k * 1 ≤ k * q.esize := Nat.mul_le_mul_left _ h.esize_pos
  have h2 := h.size_le
  rw [h.size_eq] at h2
  omega

theorem uqueue_full_iff_room (q : UQueue_t) (k : Nat) (h : UIdx q k) :
    uqueue_is_full q = false ↔ q.size + q.esize ≤ q.capacity := by
  unfold uqueue_is_full
  by_cases hne : q.size = q.capacity
  · rw [if_pos hne]
    have := h.esize_pos
    constructor
    · intro hh; cases hh
    · intro hh; omega
  · rw [if_neg hne, sz_add_eq _ _ (h.no_wrap hne)]
    by_cases hr : q.size + q.esize > q.capacity
    · rw [if_pos hr]
      constructor
      · intro hh; cases hh
      · intro hh; omega
    · rw [if_neg hr]
      constructor
      · intro _; omega
      · intro _; rfl

theorem uqueue_empty_iff_zero (q : UQueue_t) (k : Nat) (h : UIdx q k) :
    (uqueue_is_empty q = true ↔ q.size = 0)
      ∧ (q.size ≠ 0 → ¬ (sz_sub q.capacity q.size ≥ q.capacity)) := by
  have hcap := h.size_t_cap
  have hle := h.size_le
  have h2 : q.size ≠ 0 → ¬ (sz_sub q.capacity q.size ≥ q.capacity) := by
    intro hne
    rw [sz_sub_eq _ _ hle hcap]
    omega
  refine ⟨?_, h2⟩
  unfold uqueue_is_empty
  by_cases h0 : q.size = 0
  · rw [if_pos h0]; exact ⟨fun _ => h0, fun _ => rfl⟩
  · rw [if_neg h0, if_neg (h2 h0)]
    constructor
    · intro hh; cases hh
    · intro hh; exact absurd hh h0

theorem uqueue_enqueue_idx (cb : MemCallbacks) (q : UQueue_t) (k : Nat) (x : List Nat)
    (hreg : cb.registered) (h : UIdx q k) :
    ((uqueue_enqueue cb q x).2 = q
        ∧ ((uqueue_enqueue cb q x).1 = true → q.size + q.esize ≤ q.capacity))
      ∨ ((uqueue_enqueue cb q x).1 = true ∧ UIdx (uqueue_enqueue cb q x).2 (k + 1)
          ∧ (uqueue_enqueue cb q x).2.size = q.size + q.esize
          ∧ q.size + q.esize ≤ q.capacity
          ∧ (uqueue_enqueue cb q x).2.capacity = q.capacity
          ∧ (uqueue_enqueue cb q x).2.esize = q.esize) := by
  obtain ⟨cmp, hcmp⟩ := Option.isSome_iff_exists.1 h.cmp_some
  rw [uqueue_enqueue_unfold cb q x cmp hreg hcmp]
  by_cases hf : uqueue_is_full q = true
  · left
    rw [if_pos hf]
    exact ⟨rfl, fun hh => by cases hh⟩
  · have hroom := (uqueue_full_iff_room q k h).1 (by simpa using hf)
    rw [if_neg hf]
    by_cases hs : uqueue_scan q cmp x (uqueue_size q) 0 = true
    · left
      rw [if_pos hs]
      exact ⟨rfl, fun _ => hroom⟩
    · right
      have hcap := h.size_t_cap
      have hle := h.size_le
      have hpos := h.esize_pos
      have hrd : q.read < q.capacity := by
        rcases h.read_ok with hr | hr
        · exact hr
        · omega
      rw [if_neg hs]
      simp only [uenqueue_loop_eq q.capacity x q.esize 0 q.data q.size q.write (by omega),
        Nat.mod_eq_of_lt (by omega : q.size + q.esize < SIZE_MOD)]
      refine ⟨trivial, ⟨hpos, h.sum_le, ?_, hroom, Or.inl hrd, ?_, h.cmp_some⟩, trivial, hroom,
        trivial, trivial⟩
      · show q.size + q.esize = (k + 1) * q.esize
        rw [h.size_eq, Nat.add_mul, Nat.one_mul]
      · show (enqueue_loop _ x q.esize 0 q.data q.write).2 = _
        rw [h.write_eq, enqueue_loop_write _ _ hcap _ _ _ _ (Nat.mod_lt _ (by omega)),
          Nat.mod_add_mod, Nat.add_assoc]

theorem uqueue_denqueue_idx (cb : MemCallbacks) (q : UQueue_t) (k : Nat) (out : List Nat)
    (hreg : cb.registered) (h : UIdx q k) :
    (k = 0 ∧ uqueue_denqueue cb q out = (false, q, out))
      ∨ (∃ k', k = k' + 1 ∧ (uqueue_denqueue cb q out).1 = true
          ∧ UIdx (uqueue_denqueue cb q out).2.1 k'
          ∧ (uqueue_denqueue cb q out).2.1.capacity = q.capacity
          ∧ (uqueue_denqueue cb q out).2.1.esize = q.esize) := by
  have hcap := h.size_t_cap
  have hle := h.size_le
  have hpos := h.esize_pos
  rw [uqueue_denqueue_unfold cb q out hreg h.cmp_some]
  cases k with
  | zero =>
    left
    have hs : q.size = 0 := by rw [h.size_eq, Nat.zero_mul]
    rw [((uqueue_empty_iff_zero q 0 h).1).2 hs]
    exact ⟨rfl, rfl⟩
  | succ k =>
    right
    have hsz : q.size = k * q.esize + q.esize := by
      rw [h.size_eq, Nat.add_mul, Nat.one_mul]
    have hne : uqueue_is_empty q = false := by
      cases he : uqueue_is_empty q
      · rfl
      · have := ((uqueue_empty_iff_zero q (k + 1) h).1).1 he
        omega
    have hrd : q.read < q.capacity := by
      rcases h.read_ok with hr | hr
      · exact hr
      · omega
    rw [hne]
    simp only [Bool.false_eq_true, if_false]
    obtain ⟨_, hr⟩ := udenqueue_loop_out q.capacity q.data q.esize 0 out q.size q.read
    have hs := udenqueue_loop_size q.capacity q.data q.esize 0 out q.size q.read
      (by omega) (by omega)
    have hread : (denqueue_loop q.capacity q.data q.esize 0 out q.read).2
        = (q.read + q.esize) % q.capacity := denqueue_loop_read _ _ hcap _ _ _ _ hrd
    rw [hr, hs, hread]
    refine ⟨k, rfl, trivial, ⟨hpos, h.sum_le, ?_, ?_, Or.inl (Nat.mod_lt _ (by omega)), ?_,
      h.cmp_some⟩, trivial, trivial⟩
    · show q.size - q.esize = k * q.esize
      omega
    · show q.size - q.esize ≤ q.capacity
      omega
    · show q.write = ((q.read + q.esize) % q.capacity + (q.size - q.esize)) % q.capacity
      rw [h.write_eq, Nat.mod_add_mod]
      congr 1
      omega

theorem uqueue_run_idx (cb : MemCallbacks) (ops : List UOp) (q : UQueue_t) (k : Nat)
    (hreg : cb.registered) (h : UIdx q k) :
    ∃ k', UIdx (uqueue_run cb q ops).1 k'
      ∧ k + (uqueue_run cb q ops).2.1.length = (uqueue_run cb q ops).2.2.length + k'
      ∧ (uqueue_run cb q ops).1.capacity = q.capacity
      ∧ (uqueue_run cb q ops).1.esize = q.esize := by
  induction ops generalizing q k with
  | nil => exact ⟨k, h, by simp [uqueue_run], rfl, rfl⟩
  | cons op ops ih =>
    cases op with
    | enq x =>
      rcases uqueue_enqueue_idx cb q k x hreg h with ⟨hsame, _⟩ | ⟨k1, k2, k3, _, k5, k6⟩
      · obtain ⟨k', h1, h2, h3, h4⟩ := ih q k h
        refine ⟨k', ?_⟩
        simp only [uqueue_run, hsame, decide_True, Bool.not_true, Bool.and_false,
          Bool.false_eq_true, if_false]
        exact ⟨h1, h2, h3, h4⟩
      · obtain ⟨k', h1, h2, h3, h4⟩ := ih _ (k + 1) k2
        have hpos := h.esize_pos
        have hflag : ((uqueue_enqueue cb q x).1
            && !decide ((uqueue_enqueue cb q x).2.size = q.size)) = true := by
          rw [k1, k3]; simp; omega
        refine ⟨k', ?_⟩
        simp only [uqueue_run, hflag, if_true, List.length_cons]
        exact ⟨h1, by omega, by rw [h3, k5], by rw [h4, k6]⟩
    | deq out =>
      rcases uqueue_denqueue_idx cb q k out hreg h with ⟨hk, hemp⟩ | ⟨k0, hk, k1, k2, k3, k4⟩
      · obtain ⟨k', h1, h2, h3, h4⟩ := ih q k h
        refine ⟨k', ?_⟩
        simp only [uqueue_run, hemp]
        exact ⟨h1, h2, h3, h4⟩
      · obtain ⟨k', h1, h2, h3, h4⟩ := ih _ k0 k2
        refine ⟨k', ?_⟩
        simp only [uqueue_run, k1, if_true, List.length_cons]
        exact ⟨h1, by omega, by rw [h3, k3], by rw [h4, k4]⟩

theorem uqueue_create_idx (cb : MemCallbacks) (hdr c e : Nat)
    (cmp : Option (List Nat → List Nat → Bool)) (q : UQueue_t)
    (he : 1 ≤ e) (hsum : c + e ≤ SIZE_MOD) (hq : uqueue_create cb hdr c e cmp = some q) :
    UIdx q 0 ∧ q.capacity = c ∧ q.esize = e ∧ cb.registered := by
  obtain ⟨h1, h2, h3, h4, h5, h6, h7⟩ := uqueue_create_fields cb hdr c e cmp q hq
  refine ⟨⟨by rw [h5]; exact he, by rw [h4, h5]; exact hsum, by rw [h1, Nat.zero_mul],
    by rw [h1]; exact Nat.zero_le _, ?_, ?_, h6⟩, h4, h5, h7⟩
  · rw [h2, h4]
    by_cases hc : c = 0
    · exact Or.inr ⟨hc, rfl⟩
    · exact Or.inl (by omega)
  · rw [h2, h1, h3]
    simp

/-- C16: for every unique queue created with element size >= 1 (capacity and
element size in the range of `size_t` together: `capacity + esize <= 2^64`,
the ring and one element fit the address space), in every state reached by
`uqueue_enqueue` / `uqueue_denqueue` calls the size field is the element size
times the number of stored elements (the number of storing enqueues minus the
number of successful dequeues), `uqueue_size()` is that number and
`uqueue_free_space()` is the capacity minus that number. -/
theorem uqueue_size_accounting (cb : MemCallbacks) (hdr c e : Nat)
    (cmp : Option (List Nat → List Nat → Bool)) (q : UQueue_t) (ops : List UOp)
    (he : 1 ≤ e) (hsum : c + e ≤ SIZE_MOD) (hq : uqueue_create cb hdr c e cmp = some q) :
    (uqueue_run cb q ops).1.size
        = e * ((uqueue_run cb q ops).2.1.length - (uqueue_run cb q ops).2.2.length)
      ∧ (uqueue_run cb q ops).2.2.length ≤ (uqueue_run cb q ops).2.1.length
      ∧ uqueue_size (uqueue_run cb q ops).1
          = (uqueue_run cb q ops).2.1.length - (uqueue_run cb q ops).2.2.length
      ∧ uqueue_free_space (uqueue_run cb q ops).1
          = c - ((uqueue_run cb q ops).2.1.length - (uqueue_run cb q ops).2.2.length) := by
  obtain ⟨hidx, hcap, hesz, hreg⟩ := uqueue_create_idx cb hdr c e cmp q he hsum hq
  obtain ⟨k', h1, h2, h3, h4⟩ := uqueue_run_idx cb ops q 0 hreg hidx
  generalize uqueue_run cb q ops = t at *
  have hc' : t.1.capacity = c := by rw [h3, hcap]
  have he' : t.1.esize = e := by rw [h4, hesz]
  have hk : t.2.1.length - t.2.2.length = k' := by omega
  have hsz : t.1.size = k' * e := by rw [h1.size_eq, he']
  have hkc : k' ≤ c := by have := h1.count_le; rwa [hc'] at this
  have hcM : c < SIZE_MOD := by have := h1.size_t_cap; rwa [hc'] at this
  have hdiv : t.1.size / t.1.esize = k' := by
    rw [hsz, he']; exact Nat.mul_div_cancel _ he
  refine ⟨by rw [hk, hsz, Nat.mul_comm], by omega, ?_, ?_⟩
  · unfold uqueue_size; rw [hdiv, hk]
  · unfold uqueue_free_space; rw [hdiv, hk, hc']; exact sz_sub_eq c k' hkc hcM

/-- Witness of `uqueue_size_accounting`: capacity `5`, two-byte elements,
after two enqueues and a dequeue. -/
theorem uqueue_size_accounting_witness :
    uqueue_size (uqueue_run test_cb
        { data := [0, 0, 0, 0, 0, 170, 170, 170, 170, 170], write := 0, read := 0, size := 0,
          capacity := 5, esize := 2, compare_cb := some bytes_equal }
        [.enq [1, 2], .enq [3, 4], .deq [0, 0]]).1 = 1
      ∧ uqueue_free_space (uqueue_run test_cb
        { data := [0, 0, 0, 0, 0, 170, 170, 170, 170, 170], write := 0, read := 0, size := 0,
          capacity := 5, esize := 2, compare_cb := some bytes_equal }
        [.enq [1, 2], .enq [3, 4], .deq [0, 0]]).1
          = 5 - ((uqueue_run test_cb
        { data := [0, 0, 0, 0, 0, 170, 170, 170, 170, 170], write := 0, read := 0, size := 0,
          capacity := 5, esize := 2, compare_cb := some bytes_equal }
        [.enq [1, 2], .enq [3, 4], .deq [0, 0]]).2.1.length - (uqueue_run test_cb
        { data := [0, 0, 0, 0, 0, 170, 170, 170, 170, 170], write := 0, read := 0, size := 0,
          capacity := 5, esize := 2, compare_cb := some bytes_equal }
        [.enq [1, 2], .enq [3, 4], .deq [0, 0]]).2.2.length) :=
  have h := uqueue_size_accounting test_cb 48 5 2 (some bytes_equal)
    { data := [0, 0, 0, 0, 0, 170, 170, 170, 170, 170], write := 0, read := 0, size := 0,
      capacity := 5, esize := 2, compare_cb := some bytes_equal }
    [.enq [1, 2], .enq [3, 4], .deq [0, 0]] (by decide) (by decide) rfl
  ⟨by decide, h.2.2.2⟩

/-- C18 (as stated, refuted): a unique queue created with capacity `0` and
two-byte elements holds `0` elements, which is its capacity: the last clause
(`e > 1` never holds `c` elements) fails at `c = 0`. -/
theorem uqueue_capacity_counterexample :
    (uqueue_create test_cb 48 0 2 (some never_equal)).map
        (fun q => (uqueue_size q, q.capacity, q.esize))
      = some (0, 0, 2) := by
  decide

/-- C18 (amended): for every unique queue created with capacity `c` and
element size `e >= 1` (in the range of `size_t` together: `c + e <= 2^64`,
the ring and one element fit the address space), in every state reached by
`uqueue_enqueue` / `uqueue_denqueue` calls the stored byte count is at most
`c`, the read and write indices are below `c` (for `c >= 1`),
`uqueue_size() <= c / e`, and `uqueue_enqueue` returns false whenever stored
bytes + `e` exceed `c`; so with `e > c` the queue is empty and refuses every
element, and with `e > 1` and `c >= 1` it holds fewer than `c` elements. -/
theorem uqueue_effective_capacity (cb : MemCallbacks) (hdr c e : Nat)
    (cmp : Option (List Nat → List Nat → Bool)) (q : UQueue_t) (ops : List UOp)
    (x : List Nat)
    (he : 1 ≤ e) (hsum : c + e ≤ SIZE_MOD) (hq : uqueue_create cb hdr c e cmp = some q) :
    (uqueue_run cb q ops).1.size ≤ c
      ∧ (1 ≤ c → (uqueue_run cb q ops).1.read < c ∧ (uqueue_run cb q ops).1.write < c)
      ∧ uqueue_size (uqueue_run cb q ops).1 ≤ c / e
      ∧ ((uqueue_run cb q ops).1.size + e > c
          → (uqueue_enqueue cb (uqueue_run cb q ops).1 x).1 = false)
      ∧ (e > c → uqueue_size (uqueue_run cb q ops).1 = 0
          ∧ (uqueue_enqueue cb (uqueue_run cb q ops).1 x).1 = false)
      ∧ (1 < e → 1 ≤ c → uqueue_size (uqueue_run cb q ops).1 < c) := by
  obtain ⟨hidx, hcap, hesz, hreg⟩ := uqueue_create_idx cb hdr c e cmp q he hsum hq
  obtain ⟨k', h1, _, h3, h4⟩ := uqueue_run_idx cb ops q 0 hreg hidx
  generalize (uqueue_run cb q ops).1 = s at *
  have hc' : s.capacity = c := by rw [h3, hcap]
  have he' : s.esize = e := by rw [h4, hesz]
  have hsz : s.size = k' * e := by rw [h1.size_eq, he']
  have hle : s.size ≤ c := by have := h1.size_le; rwa [hc'] at this
  have hdiv : uqueue_size s = k' := by
    unfold uqueue_size; rw [hsz, he']; exact Nat.mul_div_cancel _ he
  have hkdiv : k' ≤ c / e := (Nat.le_div_iff_mul_le (by omega)).2 (by rw [← hsz]; exact hle)
  have hrefuse : s.size + e > c → (uqueue_enqueue cb s x).1 = false := by
    intro hgt
    rcases uqueue_enqueue_idx cb s k' x hreg h1 with ⟨_, hroom⟩ | ⟨_, _, _, hroom, _, _⟩
    · cases hr : (uqueue_enqueue cb s x).1
      · rfl
      · have := hroom hr
        rw [hc', he'] at this
        omega
    · rw [hc', he'] at hroom
      omega
  refine ⟨hle, ?_, by rw [hdiv]; exact hkdiv, hrefuse, ?_, ?_⟩
  · intro hc1
    have hrd : s.read < c := by
      rcases h1.read_ok with hr | hr
      · rwa [hc'] at hr
      · rw [hc'] at hr; omega
    refine ⟨hrd, ?_⟩
    rw [h1.write_eq, hc']
    exact Nat.mod_lt _ (by omega)
  · intro hgt
    have hk0 : k' = 0 := by
      have := Nat.div_eq_of_lt hgt
      omega
    exact ⟨by rw [hdiv, hk0], hrefuse (by omega)⟩
  · intro h1e hc1
    rw [hdiv]
    have h2k : k' * 2 ≤ k' * e := Nat.mul_le_mul_left _ h1e
    omega

/-- Witness of `uqueue_effective_capacity`: capacity `5`, two-byte elements;
after two stored elements a third is refused. -/
theorem uqueue_effective_capacity_witness :
    (uqueue_enqueue test_cb (uqueue_run test_cb
        { data := [0, 0, 0, 0, 0, 170, 170, 170, 170, 170], write := 0, read := 0, size := 0,
          capacity := 5, esize := 2, compare_cb := some bytes_equal }
        [.enq [1, 2], .enq [3, 4]]).1 [5, 6]).1 = false :=
  (uqueue_effective_capacity test_cb 48 5 2 (some bytes_equal)
    { data := [0, 0, 0, 0, 0, 170, 170, 170, 170, 170], write := 0, read := 0, size := 0,
      capacity := 5, esize := 2, compare_cb := some bytes_equal }
    [.enq [1, 2], .enq [3, 4]] [5, 6] (by decide) (by decide) rfl).2.2.2.1 (by decide)

/-- C19: for every unique queue created with element size >= 1 (capacity and
element size in the range of `size_t` together: `capacity + esize <= 2^64`,
the ring and one element fit the address space), in every state reached by
`uqueue_enqueue` / `uqueue_denqueue` calls `uqueue_is_empty` returns true if
and only if the stored byte count is `0`, which is the case if and only if
`uqueue_size() == 0`; the second test of `uqueue_is_empty`,
`(capacity - size) >= capacity` in `size_t`, is false whenever the size is not
`0`; and `uqueue_denqueue` on an empty queue returns false and leaves the
queue and the caller's buffer as they are. -/
theorem uqueue_emptiness (cb : MemCallbacks) (hdr c e : Nat)
    (cmp : Option (List Nat → List Nat → Bool)) (q : UQueue_t) (ops : List UOp)
    (out : List Nat)
    (he : 1 ≤ e) (hsum : c + e ≤ SIZE_MOD) (hq : uqueue_create cb hdr c e cmp = some q) :
    (uqueue_is_empty (uqueue_run cb q ops).1 = true ↔ (uqueue_run cb q ops).1.size = 0)
      ∧ ((uqueue_run cb q ops).1.size = 0 ↔ uqueue_size (uqueue_run cb q ops).1 = 0)
      ∧ ((uqueue_run cb q ops).1.size ≠ 0
          → ¬ (sz_sub (uqueue_run cb q ops).1.capacity (uqueue_run cb q ops).1.size
                ≥ (uqueue_run cb q ops).1.capacity))
      ∧ (uqueue_is_empty (uqueue_run cb q ops).1 = true
          → uqueue_denqueue cb (uqueue_run cb q ops).1 out
              = (false, (uqueue_run cb q ops).1, out)) := by
  obtain ⟨hidx, _, hesz, hreg⟩ := uqueue_create_idx cb hdr c e cmp q he hsum hq
  obtain ⟨k', h1, _, _, h4⟩ := uqueue_run_idx cb ops q 0 hreg hidx
  generalize (uqueue_run cb q ops).1 = s at *
  have he' : s.esize = e := by rw [h4, hesz]
  obtain ⟨a1, a2⟩ := uqueue_empty_iff_zero s k' h1
  have hdiv : uqueue_size s = k' := by
    unfold uqueue_size; rw [h1.size_eq]; exact Nat.mul_div_cancel _ h1.esize_pos
  refine ⟨a1, ?_, a2, ?_⟩
  · rw [hdiv, h1.size_eq]
    constructor
    · intro h0
      rcases Nat.mul_eq_zero.1 h0 with h | h
      · exact h
      · have := h1.esize_pos; omega
    · intro h0; rw [h0, Nat.zero_mul]
  · intro hemp
    rw [uqueue_denqueue_unfold cb s out hreg h1.cmp_some, hemp]
    rfl

/-- Witness of `uqueue_emptiness`: capacity `5`, two-byte elements, after an
enqueue and a dequeue. -/
theorem uqueue_emptiness_witness :
    (uqueue_denqueue test_cb (uqueue_run test_cb
        { data := [0, 0, 0, 0, 0, 170, 170, 170, 170, 170], write := 0, read := 0, size := 0,
          capacity := 5, esize := 2, compare_cb := some bytes_equal }
        [.enq [1, 2], .deq [0, 0]]).1 [9, 9]).1 = false :=
  have h := (uqueue_emptiness test_cb 48 5 2 (some bytes_equal)
    { data := [0, 0, 0, 0, 0, 170, 170, 170, 170, 170], write := 0, read := 0, size := 0,
      capacity := 5, esize := 2, compare_cb := some bytes_equal }
    [.enq [1, 2], .deq [0, 0]] [9, 9] (by decide) (by decide) rfl).2.2.2 (by decide)
  by rw [h]

/-! ## Unique queue and ring queue on one-byte elements -/

theorem uqueue_scan_no_match (q : UQueue_t) (cmp : List Nat → List Nat → Bool)
    (hcmp : ∀ a b, cmp a b = false) (x : List Nat) (n i : Nat) :
    uqueue_scan q cmp x n i = false := by
  induction n generalizing i with
  | zero => rfl
  | succ n ih => rw [uqueue_scan, hcmp, if_neg (by decide)]; exact ih _

theorem USim.observe {u : UQueue_t} {q : Queue_t} (h : USim u q) (res : Bool)
    (buf : List Nat) : uqueue_observe res buf u = queue_observe res buf q := by
  have hle := h.size_le
  have hcap := h.cap_lt
  have hsz : uqueue_size u = queue_size q := by
    unfold uqueue_size queue_size; rw [h.uesize, Nat.div_one, h.size_eq]
  have hfs : uqueue_free_space u = queue_free_space q := by
    unfold uqueue_free_space queue_free_space
    rw [h.uesize, Nat.div_one, h.size_eq, h.cap_eq]
  have hemp : uqueue_is_empty u = queue_is_empty q := by
    unfold uqueue_is_empty queue_is_empty
    rw [h.size_eq, h.cap_eq]
    by_cases h0 : q.size = 0
    · rw [if_pos h0, if_pos h0]
    · rw [if_neg h0, if_neg h0, sz_sub_eq _ _ hle hcap, if_neg (by omega)]
  have hfull : uqueue_is_full u = queue_is_full q := by
    unfold uqueue_is_full queue_is_full
    rw [h.size_eq, h.cap_eq, h.uesize]
    by_cases h0 : q.size = q.capacity
    · rw [if_pos h0, if_pos h0]
    · rw [if_neg h0, if_neg h0, sz_add_eq _ _ (by omega), if_neg (by omega)]
  unfold uqueue_observe queue_observe
  rw [hsz, hfs, hemp, hfull]

theorem USim.enqueue {u : UQueue_t} {q : Queue_t} (cb : MemCallbacks)
    (cmp : List Nat → List Nat → Bool) (h : USim u q) (hreg : cb.registered)
    (hcmp : u.compare_cb = some cmp) (hno : ∀ a b, cmp a b = false) (p : List Nat) :
    (uqueue_enqueue cb u p).1 = (queue_enqueue q p).1
      ∧ USim (uqueue_enqueue cb u p).2 (queue_enqueue q p).2
      ∧ (uqueue_enqueue cb u p).2.compare_cb = some cmp := by
  have hle := h.size_le
  have hcap := h.cap_lt
  have hraw : sz_mul q.capacity 1 = q.capacity := by
    rw [sz_mul_eq _ _ (by omega), Nat.mul_one]
  by_cases hf : q.size = q.capacity
  · have hfu : uqueue_is_full u = true := by
      unfold uqueue_is_full; rw [h.size_eq, h.cap_eq, if_pos hf]
    rw [queue_enqueue_full q p hf, uqueue_enqueue_unfold cb u p cmp hreg hcmp, hfu]
    exact ⟨rfl, h, hcmp⟩
  · have hfu : uqueue_is_full u = false := by
      unfold uqueue_is_full
      rw [h.size_eq, h.cap_eq, h.uesize, if_neg hf, sz_add_eq _ _ (by omega),
        if_neg (by omega)]
    rw [uqueue_enqueue_stores cb u p cmp hreg hcmp (by rw [h.size_eq]; omega) hfu
      (uqueue_scan_no_match u cmp hno p _ _)]
    unfold queue_enqueue queue_is_full
    rw [if_neg hf]
    simp only [Bool.false_eq_true, if_false, hraw, h.uesize, h.qesize, h.cap_eq, h.data_eq,
      h.write_eq, h.size_eq]
    refine ⟨trivial, ⟨rfl, rfl, h.read_eq, rfl, rfl, rfl, rfl, ?_, hcap,
      h.cmp_some⟩, hcmp⟩
    show sz_add q.size 1 ≤ q.capacity
    rw [sz_add_eq _ _ (by omega)]
    omega

theorem USim.denqueue {u : UQueue_t} {q : Queue_t} (cb : MemCallbacks)
    (cmp : List Nat → List Nat → Bool) (h : USim u q) (hreg : cb.registered)
    (hcmp : u.compare_cb = some cmp) (p : List Nat) :
    (uqueue_denqueue cb u p).1 = (queue_denqueue q p).1
      ∧ (uqueue_denqueue cb u p).2.2 = (queue_denqueue q p).2.2
      ∧ USim (uqueue_denqueue cb u p).2.1 (queue_denqueue q p).2.1
      ∧ (uqueue_denqueue cb u p).2.1.compare_cb = some cmp := by
  have hle := h.size_le
  have hcap := h.cap_lt
  have hraw : sz_mul q.capacity 1 = q.capacity := by
    rw [sz_mul_eq _ _ (by omega), Nat.mul_one]
  rw [uqueue_denqueue_unfold cb u p hreg h.cmp_some]
  by_cases h0 : q.size = 0
  · have heu : uqueue_is_empty u = true := by
      unfold uqueue_is_empty; rw [h.size_eq, if_pos h0]
    rw [queue_denqueue_empty q p h0, heu]
    exact ⟨rfl, rfl, h, hcmp⟩
  · have heu : uqueue_is_empty u = false := by
      unfold uqueue_is_empty
      rw [h.size_eq, h.cap_eq, if_neg h0, sz_sub_eq _ _ hle hcap, if_neg (by omega)]
    rw [heu]
    unfold queue_denqueue queue_is_empty
    rw [if_neg h0]
    simp only [Bool.false_eq_true, if_false, hraw, h.uesize, h.qesize, h.cap_eq, h.data_eq,
      h.read_eq, h.size_eq, udenqueue_loop, denqueue_loop]
    refine ⟨trivial, trivial, ⟨rfl, h.write_eq, rfl, rfl, rfl, rfl, rfl,
      ?_, hcap, h.cmp_some⟩, hcmp⟩
    show sz_sub q.size 1 ≤ q.capacity
    rw [sz_sub_eq _ _ (by omega) (by omega)]
    omega

theorem USim.trace (cb : MemCallbacks) (cmp : List Nat → List Nat → Bool)
    (hreg : cb.registered) (hno : ∀ a b, cmp a b = false) (ops : List UOp)
    (u : UQueue_t) (q : Queue_t) (h : USim u q) (hcmp : u.compare_cb = some cmp) :
    uqueue_trace cb u ops = queue_trace q ops := by
  induction ops generalizing u q with
  | nil => rfl
  | cons op ops ih =>
    cases op with
    | enq p =>
      obtain ⟨h1, h2, h3⟩ := h.enqueue cb cmp hreg hcmp hno p
      rw [uqueue_trace, queue_trace, ih _ _ h2 h3, h1, h2.observe]
    | deq p =>
      obtain ⟨h1, h2, h3, h4⟩ := h.denqueue cb cmp hreg hcmp p
      rw [uqueue_trace, queue_trace, ih _ _ h3 h4, h1, h2, h3.observe]

/-- C20: for element size `1`, every capacity >= 1, an equality predicate that
never reports a match and registered allocator callbacks, the same sequence of
enqueue / dequeue calls on a fresh unique queue and on a fresh ring queue of
the same capacity yields, call by call, the same result, the same caller's
buffer after the call (the dequeued byte), and the same `size()`,
`free_space()`, `is_empty()` and `is_full()` after the call. -/
theorem uqueue_refines_queue (cbq cbu : MemCallbacks) (hdrq hdru c : Nat)
    (cmp : List Nat → List Nat → Bool) (q : Queue_t) (u : UQueue_t) (ops : List UOp)
    (hc : 1 ≤ c) (hcM : c < SIZE_MOD) (hsq : alloc_sized cbq) (hsu : alloc_sized cbu)
    (hno : ∀ a b, cmp a b = false)
    (hq : queue_create cbq hdrq c 1 = some q)
    (hu : uqueue_create cbu hdru c 1 (some cmp) = some u) :
    uqueue_trace cbu u ops = queue_trace q ops := by
  have hraw : c * 1 < SIZE_MOD := by omega
  obtain ⟨qinv, qcap, qesz⟩ := queue_create_inv cbq hdrq c 1 q hsq hc (by omega) hraw hq
  obtain ⟨qs, _, _, qr, qw⟩ := queue_create_fields cbq hdrq c 1 q hq
  obtain ⟨us, ur, uw, ucap, uesz, ucs, hreg⟩ := uqueue_create_fields cbu hdru c 1 (some cmp) u hu
  obtain ⟨_, _, _, ucmp, _, _, _, _⟩ :=
    uqueue_create_inv cbu hdru c 1 (some cmp) u hsu hc (by omega) hraw hu
  have hqd : q.data = List.replicate c 0 := by
    rw [queue_create_zeroed cbq hdrq c 1 q hsq hq, sz_mul_eq c 1 hraw, Nat.mul_one]
  have hud : u.data = List.replicate c 0 := by
    unfold uqueue_create at hu
    split at hu
    · cases hu
    · split at hu
      · cases hu
      · split at hu
        · cases hu
        · rename_i alloc halloc
          split at hu
          · cases hu
          · split at hu
            · cases hu
            · rename_i blk hblk
              have hlen : blk.length = c := by
                have := hsu alloc halloc 1 _ blk hblk
                rwa [sz_mul_eq c 1 hraw, Nat.mul_one] at this
              injection hu with hu
              subst hu
              show zero_fill c 0 blk = _
              rw [← hlen]
              exact zero_fill_all blk
  exact USim.trace cbu cmp hreg hno ops u q
    ⟨by rw [hud, hqd], by rw [uw, qw], by rw [ur, qr], by rw [us, qs], by rw [ucap, qcap],
      uesz, qesz, by rw [qs]; exact Nat.zero_le _, by rw [qcap]; exact hcM, ucs⟩ ucmp

/-- Witness of `uqueue_refines_queue`: the scenario of the specification on a
unique queue and a ring queue of three one-byte elements. -/
theorem uqueue_refines_queue_witness :
    uqueue_trace test_cb
        { data := [0, 0, 0], write := 0, read := 0, size := 0, capacity := 3, esize := 1,
          compare_cb := some never_equal }
        [.enq [97], .enq [98], .enq [99], .enq [100], .deq [0], .enq [100], .deq [0],
         .deq [0], .deq [0], .deq [0]]
      = queue_trace fresh_3_1
        [.enq [97], .enq [98], .enq [99], .enq [100], .deq [0], .enq [100], .deq [0],
         .deq [0], .deq [0], .deq [0]] :=
  uqueue_refines_queue test_cb test_cb 48 56 3 never_equal fresh_3_1
    { data := [0, 0, 0], write := 0, read := 0, size := 0, capacity := 3, esize := 1,
      compare_cb := some never_equal }
    [.enq [97], .enq [98], .enq [99], .enq [100], .deq [0], .enq [100], .deq [0],
     .deq [0], .deq [0], .deq [0]]
    (by decide) (by decide) test_cb_sized test_cb_sized (fun _ _ => rfl) (by decide) rfl

/-! ## Ring queue: round trip, with `rawSize` as the code computes it -/

theorem sz_mul_lt (a b : Nat) : sz_mul a b < SIZE_MOD :=
  Nat.mod_lt _ (by unfold SIZE_MOD; omega)

theorem QWrap.write_below {q : Queue_t} (h : QWrap q) :
    q.write < sz_mul q.capacity q.esize := by
  rw [h.write_eq]
  exact Nat.mod_lt _ h.raw_pos

theorem QWrap.read_fits {q : Queue_t} (h : QWrap q) :
    q.read + q.esize ≤ sz_mul q.capacity q.esize := by
  obtain ⟨j, hj⟩ := h.read_al
  obtain ⟨m, hm⟩ := h.esize_dvd
  have h1 := h.read_lt
  rw [hj, hm] at h1
  have h2 : j < m := Nat.lt_of_mul_lt_mul_left h1
  have h3 : q.esize * (j + 1) ≤ q.esize * m := Nat.mul_le_mul_left _ h2
  rw [hj, hm]
  rw [Nat.mul_add, Nat.mul_one] at h3
  exact h3

theorem queue_enqueue_wrap (q : Queue_t) (x : List Nat) (h : QWrap q) :
    QWrap (queue_enqueue q x).2 ∧ (queue_enqueue q x).2.capacity = q.capacity
      ∧ (queue_enqueue q x).2.esize = q.esize := by
  by_cases hnf : q.size = q.capacity
  · rw [queue_enqueue_full q x hnf]; exact ⟨h, rfl, rfl⟩
  · have hlt : q.size < q.capacity := Nat.lt_of_le_of_ne h.size_le hnf
    have hcap := h.cap_lt
    unfold queue_enqueue queue_is_full
    rw [if_neg hnf]
    simp only [Bool.false_eq_true, if_false, sz_add_eq q.size 1 (by omega)]
    refine ⟨⟨h.esize_pos, hcap, h.raw_pos, h.esize_dvd, ?_, hlt, h.read_lt, h.read_al, ?_⟩,
      trivial, trivial⟩
    · show (enqueue_loop _ x q.esize 0 q.data q.write).1.length = _
      rw [enqueue_loop_length]; exact h.data_len
    · show (enqueue_loop _ x q.esize 0 q.data q.write).2
        = (q.read + (q.size + 1) * q.esize) % sz_mul q.capacity q.esize
      rw [enqueue_loop_write _ _ (sz_mul_lt _ _) _ _ _ _ h.write_below, h.write_eq,
        Nat.mod_add_mod, Nat.add_mul, Nat.one_mul, Nat.add_assoc]

theorem queue_denqueue_wrap (q : Queue_t) (out : List Nat) (h : QWrap q) :
    QWrap (queue_denqueue q out).2.1 ∧ (queue_denqueue q out).2.1.capacity = q.capacity
      ∧ (queue_denqueue q out).2.1.esize = q.esize := by
  by_cases hemp : q.size = 0
  · rw [queue_denqueue_empty q out hemp]; exact ⟨h, rfl, rfl⟩
  · have hcap := h.cap_lt
    have hle := h.size_le
    unfold queue_denqueue queue_is_empty
    rw [if_neg hemp]
    simp only [Bool.false_eq_true, if_false, sz_sub_eq q.size 1 (by omega) (by omega)]
    have hread : (denqueue_loop (sz_mul q.capacity q.esize) q.data q.esize 0 out q.read).2
        = (q.read + q.esize) % sz_mul q.capacity q.esize :=
      denqueue_loop_read _ _ (sz_mul_lt _ _) _ _ _ _ h.read_lt
    refine ⟨⟨h.esize_pos, hcap, h.raw_pos, h.esize_dvd, h.data_len, ?_, ?_, ?_, ?_⟩,
      trivial, trivial⟩
    · show q.size - 1 ≤ q.capacity
      omega
    · show (denqueue_loop _ q.data q.esize 0 out q.read).2 < sz_mul q.capacity q.esize
      rw [hread]; exact Nat.mod_lt _ h.raw_pos
    · show q.esize ∣ (denqueue_loop _ q.data q.esize 0 out q.read).2
      rw [hread]
      exact (Nat.dvd_mod_iff h.esize_dvd).2 (Nat.dvd_add h.read_al (Nat.dvd_refl _))
    · show q.write = ((denqueue_loop _ q.data q.esize 0 out q.read).2
        + (q.size - 1) * q.esize) % sz_mul q.capacity q.esize
      rw [hread, h.write_eq, Nat.mod_add_mod]
      congr 1
      obtain ⟨n, hn⟩ : ∃ n, q.size = n + 1 := ⟨q.size - 1, by omega⟩
      rw [hn, Nat.add_sub_cancel, Nat.add_mul, Nat.one_mul]
      omega

theorem queue_flush_wrap (q : Queue_t) (h : QWrap q) :
    QWrap (queue_flush q) ∧ (queue_flush q).capacity = q.capacity
      ∧ (queue_flush q).esize = q.esize := by
  refine ⟨⟨h.esize_pos, h.cap_lt, h.raw_pos, h.esize_dvd, ?_, Nat.zero_le _, h.raw_pos,
    Nat.dvd_zero _, ?_⟩, rfl, rfl⟩
  · show (zero_fill _ 0 q.data).length = _
    rw [zero_fill_length]; exact h.data_len
  · show (0 : Nat) = (0 + 0 * q.esize) % sz_mul q.capacity q.esize
    rw [Nat.zero_mul, Nat.add_zero, Nat.zero_mod]

theorem queue_run_wrap (ops : List QOp) (q : Queue_t) (h : QWrap q) :
    QWrap (queue_run q ops).1 ∧ (queue_run q ops).1.capacity = q.capacity
      ∧ (queue_run q ops).1.esize = q.esize := by
  induction ops generalizing q with
  | nil => exact ⟨h, rfl, rfl⟩
  | cons op ops ih =>
    cases op with
    | enq x =>
      obtain ⟨k1, k2, k3⟩ := queue_enqueue_wrap q x h
      obtain ⟨h1, h2, h3⟩ := ih _ k1
      exact ⟨by simpa only [queue_run] using h1, by simpa only [queue_run, k2] using h2,
        by simpa only [queue_run, k3] using h3⟩
    | deq out =>
      obtain ⟨k1, k2, k3⟩ := queue_denqueue_wrap q out h
      obtain ⟨h1, h2, h3⟩ := ih _ k1
      exact ⟨by simpa only [queue_run] using h1, by simpa only [queue_run, k2] using h2,
        by simpa only [queue_run, k3] using h3⟩
    | peek out => simpa only [queue_run] using ih q h
    | find n f => simpa only [queue_run] using ih q h
    | flush =>
      obtain ⟨k1, k2, k3⟩ := queue_flush_wrap q h
      obtain ⟨h1, h2, h3⟩ := ih _ k1
      exact ⟨by simpa only [queue_run] using h1, by simpa only [queue_run, k2] using h2,
        by simpa only [queue_run, k3] using h3⟩

theorem queue_create_wrap (cb : MemCallbacks) (hdr c e : Nat) (q : Queue_t)
    (hcb : alloc_sized cb) (hcM : c < SIZE_MOD) (he : 1 ≤ e) (hdvd : e ∣ SIZE_MOD)
    (hbuf : sz_mul c e ≠ 0) (hq : queue_create cb hdr c e = some q) :
    QWrap q ∧ q.capacity = c ∧ q.esize = e := by
  obtain ⟨h1, h2, h3, h4, h5⟩ := queue_create_fields cb hdr c e q hq
  have hd := queue_create_zeroed cb hdr c e q hcb hq
  have hpos : 0 < sz_mul c e := Nat.pos_of_ne_zero hbuf
  refine ⟨⟨by rw [h3]; exact he, by rw [h2]; exact hcM, by rw [h2, h3]; exact hpos, ?_, ?_,
    by rw [h1]; exact Nat.zero_le _, by rw [h4, h2, h3]; exact hpos,
    by rw [h4]; exact Nat.dvd_zero _, ?_⟩, h2, h3⟩
  · rw [h2, h3]
    exact (Nat.dvd_mod_iff hdvd).2 (Dvd.intro_left c rfl)
  · rw [hd, List.length_replicate, h2, h3]
  · rw [h5, h4, h1, Nat.zero_mul, Nat.add_zero, Nat.zero_mod]

theorem queue_round_trip_wrap (s : Queue_t) (x out : List Nat) (h : QWrap s)
    (hemp : s.size = 0) (hc : 1 ≤ s.capacity) (hx : x.length = s.esize)
    (hout : out.length = s.esize) :
    (queue_enqueue s x).1 = true
      ∧ (queue_denqueue (queue_enqueue s x).2 out).1 = true
      ∧ (queue_denqueue (queue_enqueue s x).2 out).2.2 = x
      ∧ queue_is_empty (queue_denqueue (queue_enqueue s x).2 out).2.1 = true := by
  have hcap := h.cap_lt
  have hR := sz_mul_lt s.capacity s.esize
  have hsp := h.read_fits
  have hrd := h.read_lt
  have hw : s.write = s.read := by
    rw [h.write_eq, hemp, Nat.zero_mul, Nat.add_zero, Nat.mod_eq_of_lt hrd]
  have henq : queue_enqueue s x
      = (true, { s with
          data := (enqueue_loop (sz_mul s.capacity s.esize) x s.esize 0 s.data s.read).1,
          write := (enqueue_loop (sz_mul s.capacity s.esize) x s.esize 0 s.data s.read).2,
          size := 1 }) := by
    unfold queue_enqueue queue_is_full
    rw [if_neg (by omega : ¬ s.size = s.capacity), hw, hemp, sz_add_eq 0 1 (by omega)]
    rfl
  rw [henq]
  generalize hd1 : (enqueue_loop (sz_mul s.capacity s.esize) x s.esize 0 s.data s.read).1 = d1
  generalize (enqueue_loop (sz_mul s.capacity s.esize) x s.esize 0 s.data s.read).2 = w1
  have hbytes : ring_bytes d1 (sz_mul s.capacity s.esize) s.read s.esize = x := by
    unfold ring_bytes
    refine Eq.trans ?_ (range_map_getD x)
    rw [hx]
    apply List.map_congr_left
    intro k hk
    rw [List.mem_range] at hk
    rw [← hd1]
    exact enqueue_loop_written _ x hR s.esize 0 s.data s.read hrd
      (Nat.le_of_eq h.data_len.symm) (by omega) k hk
  have hdeq : queue_denqueue
      { data := d1, write := w1, read := s.read, size := 1, capacity := s.capacity,
        esize := s.esize } out
      = (true,
          ({ data := d1, write := w1,
             read := (denqueue_loop (sz_mul s.capacity s.esize) d1 s.esize 0 out s.read).2,
             size := 0, capacity := s.capacity, esize := s.esize } : Queue_t),
          (denqueue_loop (sz_mul s.capacity s.esize) d1 s.esize 0 out s.read).1) := by
    unfold queue_denqueue queue_is_empty
    show (if (if (1 : Nat) = 0 then true else false) = true then _ else _) = _
    rw [if_neg (by omega : ¬ (1 : Nat) = 0)]
    simp only [Bool.false_eq_true, if_false, sz_sub_eq 1 1 (by omega) (by omega)]
  rw [hdeq]
  refine ⟨rfl, rfl, ?_, rfl⟩
  show (denqueue_loop (sz_mul s.capacity s.esize) d1 s.esize 0 out s.read).1 = x
  rw [denqueue_loop_out _ _ hR _ _ _ _ hrd (by omega), hbytes]
  simp [← hout]

/-- C6: for every element size in {1, 4, 16, 64}, every capacity >= 1 (a
`size_t` value; the storage that `queue_create` requests, `capacity * esize`
in `size_t`, is not the empty block), every empty state reached from
`queue_create` by enqueue / dequeue / peek / find / flush calls (whatever its
index positions) and every element `x`, `queue_enqueue(x)` succeeds, the
immediately following `queue_denqueue` succeeds and delivers exactly `x`,
and the queue is empty again.  The product `capacity * esize` may wrap. -/
theorem queue_round_trip (cb : MemCallbacks) (hdr c e : Nat) (q : Queue_t) (ops : List QOp)
    (x out : List Nat)
    (hcb : alloc_sized cb) (hc : 1 ≤ c) (hcM : c < SIZE_MOD)
    (he : e = 1 ∨ e = 4 ∨ e = 16 ∨ e = 64) (hbuf : sz_mul c e ≠ 0)
    (hq : queue_create cb hdr c e = some q)
    (hemp : queue_size (queue_run q ops).1 = 0)
    (hx : x.length = e) (hout : out.length = e) :
    (queue_enqueue (queue_run q ops).1 x).1 = true
      ∧ (queue_denqueue (queue_enqueue (queue_run q ops).1 x).2 out).1 = true
      ∧ (queue_denqueue (queue_enqueue (queue_run q ops).1 x).2 out).2.2 = x
      ∧ queue_is_empty (queue_denqueue (queue_enqueue (queue_run q ops).1 x).2 out).2.1
          = true := by
  have he1 : 1 ≤ e := by omega
  have hdvd : e ∣ SIZE_MOD := by
    rcases he with rfl | rfl | rfl | rfl
    · exact Nat.one_dvd _
    · exact Nat.dvd_of_mod_eq_zero (by decide)
    · exact Nat.dvd_of_mod_eq_zero (by decide)
    · exact Nat.dvd_of_mod_eq_zero (by decide)
  obtain ⟨hw, hcap, hesz⟩ := queue_create_wrap cb hdr c e q hcb hcM he1 hdvd hbuf hq
  obtain ⟨h1, h2, h3⟩ := queue_run_wrap ops q hw
  generalize (queue_run q ops).1 = s at *
  exact queue_round_trip_wrap s x out h1 hemp (by rw [h2, hcap]; exact hc)
    (by rw [h3, hesz, hx]) (by rw [h3, hesz, hout])

/-- Witness of `queue_round_trip`: capacity `2^62 + 1` and element size `4`,
whose product wraps to a storage of four bytes; `[1,2,3,4]` goes in and comes
out. -/
theorem queue_round_trip_witness :
    sz_mul 4611686018427387905 4 = 4
      ∧ (queue_denqueue (queue_enqueue
          { data := [0, 0, 0, 0], write := 0, read := 0, size := 0,
            capacity := 4611686018427387905, esize := 4 } [1, 2, 3, 4]).2
          [0, 0, 0, 0]).2.2 = [1, 2, 3, 4] :=
  have h := queue_round_trip test_cb 48 4611686018427387905 4
    { data := [0, 0, 0, 0], write := 0, read := 0, size := 0,
      capacity := 4611686018427387905, esize := 4 } [] [1, 2, 3, 4] [0, 0, 0, 0]
    test_cb_sized (by decide) (by decide) (by decide) (by decide) (by decide) (by decide)
    rfl rfl
  ⟨by decide, h.2.2.1⟩

/-- Where `capacity * esize` wraps to `0` the block that `queue_create` obtains
has no byte, and the indices wrap at `rawSize - 1 = 2^64 - 1` only: the stores
of `queue_enqueue` lie outside the block, one element further after each round
trip.  Capacity `2^62`, element size `4`: block length, the offsets stored to
in the new queue, and after one round trip. -/
theorem queue_empty_block_accesses :
    (queue_create test_cb 48 4611686018427387904 4).map
        (fun q => (q.data.length, queue_enqueue_accesses q,
          queue_enqueue_accesses (queue_run q [.enq [1, 2, 3, 4], .deq [0, 0, 0, 0]]).1))
      = some (0, [0, 1, 2, 3], [4, 5, 6, 7]) := by
  decide

end FwContainers
